import Mathlib

/-!
# Kernel image tag catalog (`cmd/lvh/kernels/catalog.go`)

A shallow embedding of `catalogCommand`'s `RunE` body and of the library
routines it calls (`regexp`, `strings`, `slices`, `golang.org/x/mod/semver`),
followed by theorems about the catalog it builds and the two listings it
prints.

Go strings are modelled by `String`, i.e. by their sequence of code points.
The tags come out of a JSON document, so they are valid UTF-8; on valid UTF-8
the byte-wise order of Go's `<` is the code point order used here, and the
ASCII bytes that the regular expression and the semver scanner look for never
occur inside a multi-byte character.
-/

namespace Kernels

/-! ## Regular expressions (the RE2 fragment used by `kernelTagRegex`) -/

/-- Abstract syntax of the regular expressions needed here. Repetition is the
one-or-more operator applied to a single-character class, greedy (`x+`) or
not (`x+?`). -/
inductive Regex where
  /-- `^` without the `m` flag: beginning of text. -/
  | bot : Regex
  /-- `$` without the `m` flag: end of text. -/
  | eot : Regex
  /-- a literal character. -/
  | lit (c : Char) : Regex
  /-- `x+` (greedy) or `x+?` for a single-character class `x`, such as `.` or `[0-9]`. -/
  | plus (cls : Char → Bool) (greedy : Bool) : Regex
  /-- concatenation. -/
  | seq (a b : Regex) : Regex
  /-- alternation `a|b`, the left branch preferred. -/
  | alt (a b : Regex) : Regex
  /-- capturing group number `i` (counted from 1). -/
  | group (i : Nat) (a : Regex) : Regex

/-- One thread of the backtracking matcher: how many characters have been
consumed since the start of the text, what is left, and the texts captured
so far (slot `i - 1` for group `i`). -/
structure MatchState where
  pos : Nat
  rest : List Char
  caps : List (List Char)

/-- The class of `.` without the `s` flag: every character but line feed. -/
def dotClass (c : Char) : Bool := c != '\n'

/-- The class `[lo-hi]`. -/
def rangeClass (lo hi : Char) (c : Char) : Bool :=
  decide (lo.toNat ≤ c.toNat) && decide (c.toNat ≤ hi.toNat)

/-- The class `[0-9]`. -/
def digitClass (c : Char) : Bool := rangeClass '0' '9' c

/-- Consume one character of class `cls`. -/
def stepClass (cls : Char → Bool) (st : MatchState) : List MatchState :=
  match st.rest with
  | [] => []
  | c :: cs => if cls c then [{ st with pos := st.pos + 1, rest := cs }] else []

/-- All ways of consuming one or more characters of class `cls` from `rest`,
in the order a backtracking matcher tries them: the longest run first when
greedy, the shortest first otherwise. -/
def plusStates (cls : Char → Bool) (greedy : Bool) (caps : List (List Char)) :
    Nat → List Char → List MatchState
  | _, [] => []
  | pos, c :: cs =>
    if cls c then
      if greedy then
        plusStates cls greedy caps (pos + 1) cs ++ [⟨pos + 1, cs, caps⟩]
      else
        ⟨pos + 1, cs, caps⟩ :: plusStates cls greedy caps (pos + 1) cs
    else []

/-- The threads that survive `re` when started in `st`, in priority order
(leftmost-first semantics: the head of the list is the match that Go's
`regexp` reports). -/
def Regex.run : Regex → MatchState → List MatchState
  | .bot, st => if st.pos = 0 then [st] else []
  | .eot, st => if st.rest.isEmpty then [st] else []
  | .lit c, st => stepClass (fun x => x == c) st
  | .plus cls greedy, st => plusStates cls greedy st.caps st.pos st.rest
  | .seq a b, st => (a.run st).flatMap b.run
  | .alt a b, st => a.run st ++ b.run st
  | .group i a, st =>
    (a.run st).map fun st' =>
      { st' with caps := st'.caps.set (i - 1) (st.rest.take (st'.pos - st.pos)) }

/-- Number of capturing groups of a regular expression. -/
def Regex.numSubexp : Regex → Nat
  | .seq a b => a.numSubexp + b.numSubexp
  | .alt a b => a.numSubexp + b.numSubexp
  | .group _ a => a.numSubexp + 1
  | _ => 0

/-- Search for the leftmost match: try to match at the current position and
move one character to the right when that fails. Returns the text of the
match followed by the texts of the capture groups, or `[]` (Go's `nil`). -/
def findFrom (re : Regex) (pos : Nat) : List Char → List (List Char)
  | [] =>
    match re.run ⟨pos, [], List.replicate re.numSubexp []⟩ with
    | [] => []
    | st :: _ => [] :: st.caps
  | c :: cs =>
    match re.run ⟨pos, c :: cs, List.replicate re.numSubexp []⟩ with
    | [] => findFrom re (pos + 1) cs
    | st :: _ => (c :: cs).take (st.pos - pos) :: st.caps

/-- Go's `(*Regexp).FindStringSubmatch`. -/
def FindStringSubmatch (re : Regex) (s : String) : List String :=
  (findFrom re 0 s.data).map String.mk

/-- The suffix alternative of the tag pattern, `[0-9]+\.[0-9]+|main`. -/
def suffixRegex : Regex :=
  .alt (.seq (.plus digitClass true) (.seq (.lit '.') (.plus digitClass true)))
       (.seq (.lit 'm') (.seq (.lit 'a') (.seq (.lit 'i') (.lit 'n'))))

/-- The constant `kernelTagRegex`, that is `^(.+)-([0-9]+\.[0-9]+|main)$`; the flag says
whether the label's `.+` is greedy, as it is in the source. -/
def tagRegex (greedy : Bool) : Regex :=
  .seq .bot (.seq (.group 1 (.plus dotClass greedy))
    (.seq (.lit '-') (.seq (.group 2 suffixRegex) .eot)))

/-- The compiled `kernelTagRegex`. -/
def kernelTagRegex : Regex := tagRegex true

/-! ## `strings` -/

/-- Go's `strings.HasPrefix` on character lists. -/
def hasPrefix : List Char → List Char → Bool
  | _, [] => true
  | [], _ :: _ => false
  | c :: cs, p :: ps => c == p && hasPrefix cs ps

/-- Go's `strings.Contains` on character lists. -/
def containsChars : List Char → List Char → Bool
  | [], sub => hasPrefix [] sub
  | c :: cs, sub => hasPrefix (c :: cs) sub || containsChars cs sub

/-- Go's `strings.Contains`. -/
def stringsContains (s substr : String) : Bool := containsChars s.data substr.data

/-- Go's `strings.TrimPrefix`. -/
def stringsTrimPrefix (s pre : String) : String :=
  if hasPrefix s.data pre.data then ⟨s.data.drop pre.data.length⟩ else s

/-! ## The catalog map -/

/-- The Go map `map[string][]string`, as an association list with one entry per key. -/
abbrev Catalog := List (String × List String)

/-- The comma-ok lookup `v, found := tags[k]`. -/
def Catalog.lookup (tags : Catalog) (k : String) : Option (List String) :=
  match tags with
  | [] => none
  | (k', v) :: rest => if k' = k then some v else Catalog.lookup rest k

/-- The plain lookup `tags[k]`: the zero value (`nil`) when the key is absent. -/
def Catalog.get (tags : Catalog) (k : String) : List String :=
  (tags.lookup k).getD []

/-- The assignment `tags[k] = v`. -/
def Catalog.set (tags : Catalog) (k : String) (v : List String) : Catalog :=
  match tags with
  | [] => [(k, v)]
  | (k', v') :: rest => if k' = k then (k', v) :: rest else (k', v') :: Catalog.set rest k v

/-- The keys of the map, each once. -/
def Catalog.keys (tags : Catalog) : List String := tags.map Prod.fst

/-- Lines 55-65 of the loop body: what the regular expression and the `-latest` check
make of one raw tag, namely nothing or the pair `(match[1], match[0])`. -/
def classify (tag : String) : Option (String × String) :=
  let m := FindStringSubmatch kernelTagRegex tag
  if m.length < 3 then none
  else if stringsContains (m.getD 1 "") "-latest" then none
  else some (m.getD 1 "", m.getD 0 "")

/-- The raw tags that the classifier keeps with label `label`, in arrival order. -/
def keptWith (label : String) (rawTagList : List String) : List String :=
  rawTagList.filter (fun tag => decide ((classify tag).map Prod.fst = some label))

/-- Lines 53-67: the loop that fills `tags` from `rawTagList`. -/
def buildCatalog (rawTagList : List String) : Catalog :=
  rawTagList.foldl
    (fun tags tag =>
      match classify tag with
      | none => tags
      | some (label, full) => tags.set label (tags.get label ++ [full]))
    []

/-! ## String comparison -/

/-- Go's `<` on strings, on character lists: lexicographic, a proper prefix first. -/
def charsLess : List Char → List Char → Bool
  | [], [] => false
  | [], _ :: _ => true
  | _ :: _, [] => false
  | a :: as, b :: bs =>
    if a.toNat < b.toNat then true
    else if b.toNat < a.toNat then false
    else charsLess as bs

/-- Go's `a < b` on strings. -/
def stringLess (a b : String) : Bool := charsLess a.data b.data

/-- Go's `strings.Compare`. -/
def stringsCompare (a b : String) : Int :=
  if a = b then 0 else if stringLess a b then -1 else 1

/-- The order `a <= b` on strings, that is `!(b < a)`. -/
def StringLE (a b : String) : Prop := stringLess b a = false

instance : DecidableRel StringLE := fun a b => decEq (stringLess b a) false

/-- Go's `slices.Sort` on a `[]string`: the slice rearranged into ascending `<` order.
The library's pattern-defeating quicksort is not stable, but `<` is a strict total
order on strings, so the ascending rearrangement is unique (`slicesSort_unique`) and
insertion sort computes it. -/
def slicesSort (l : List String) : List String :=
  l.insertionSort StringLE

/-! ## `golang.org/x/mod/semver` -/

namespace Semver

/-- The test `'0' <= c && c <= '9'`. -/
def isDigit (c : Char) : Bool := decide ('0'.toNat ≤ c.toNat) && decide (c.toNat ≤ '9'.toNat)

/-- The unexported struct `parsed`. -/
structure Parsed where
  major : List Char
  minor : List Char
  patch : List Char
  short : List Char
  prerelease : List Char
  build : List Char
deriving DecidableEq

/-- `parseInt`: a run of digits without a superfluous leading zero, and what follows it. -/
def parseInt (v : List Char) : Option (List Char × List Char) :=
  match v with
  | [] => none
  | c :: cs =>
    if !isDigit c then none
    else
      let t := c :: cs.takeWhile isDigit
      if c == '0' && t.length != 1 then none
      else some (t, cs.dropWhile isDigit)

/-- `isIdentChar`. -/
def isIdentChar (c : Char) : Bool :=
  (decide ('A'.toNat ≤ c.toNat) && decide (c.toNat ≤ 'Z'.toNat)) ||
  (decide ('a'.toNat ≤ c.toNat) && decide (c.toNat ≤ 'z'.toNat)) ||
  (decide ('0'.toNat ≤ c.toNat) && decide (c.toNat ≤ '9'.toNat)) || c == '-'

/-- `isBadNum`: all digits, more than one of them, the first a zero. -/
def isBadNum (v : List Char) : Bool :=
  v.all isDigit && decide (1 < v.length) && v.head? == some '0'

/-- `isNum`: all digits. -/
def isNum (v : List Char) : Bool := v.all isDigit

/-- The scanning loop of `parsePrerelease`; `consumed` is `v[:i]` and `ident` is
`v[start:i]`. -/
def prereleaseLoop (consumed ident : List Char) : List Char → Option (List Char × List Char)
  | [] => if ident.isEmpty || isBadNum ident then none else some (consumed, [])
  | c :: cs =>
    if c == '+' then
      if ident.isEmpty || isBadNum ident then none else some (consumed, c :: cs)
    else if !isIdentChar c && c != '.' then none
    else if c == '.' then
      if ident.isEmpty || isBadNum ident then none
      else prereleaseLoop (consumed ++ [c]) [] cs
    else prereleaseLoop (consumed ++ [c]) (ident ++ [c]) cs

/-- `parsePrerelease`. -/
def parsePrerelease (v : List Char) : Option (List Char × List Char) :=
  match v with
  | [] => none
  | c :: cs => if c != '-' then none else prereleaseLoop [c] [] cs

/-- The scanning loop of `parseBuild`. -/
def buildLoop (consumed ident : List Char) : List Char → Option (List Char × List Char)
  | [] => if ident.isEmpty then none else some (consumed, [])
  | c :: cs =>
    if !isIdentChar c && c != '.' then none
    else if c == '.' then
      if ident.isEmpty then none else buildLoop (consumed ++ [c]) [] cs
    else buildLoop (consumed ++ [c]) (ident ++ [c]) cs

/-- `parseBuild`. -/
def parseBuild (v : List Char) : Option (List Char × List Char) :=
  match v with
  | [] => none
  | c :: cs => if c != '+' then none else buildLoop [c] [] cs

/-- The tail of `parse`, after the patch number: optional prerelease, optional build,
then end of string. -/
def parseTail (major minor patch : List Char) (v : List Char) : Option Parsed :=
  let pre : Option (List Char × List Char) :=
    if v.head? == some '-' then parsePrerelease v else some ([], v)
  match pre with
  | none => none
  | some (prerelease, v) =>
    let bld : Option (List Char × List Char) :=
      if v.head? == some '+' then parseBuild v else some ([], v)
    match bld with
    | none => none
    | some (build, v) =>
      if !v.isEmpty then none
      else some ⟨major, minor, patch, [], prerelease, build⟩

/-- `parse`: the parsed form of a semantic version string, `none` when it is not one. -/
def parse (v : List Char) : Option Parsed :=
  match v with
  | [] => none
  | c :: v =>
    if c != 'v' then none
    else
      match parseInt v with
      | none => none
      | some (major, v) =>
        match v with
        | [] => some ⟨major, ['0'], ['0'], ".0.0".data, [], []⟩
        | c :: v =>
          if c != '.' then none
          else
            match parseInt v with
            | none => none
            | some (minor, v) =>
              match v with
              | [] => some ⟨major, minor, ['0'], ".0".data, [], []⟩
              | c :: v =>
                if c != '.' then none
                else
                  match parseInt v with
                  | none => none
                  | some (patch, v) => parseTail major minor patch v

/-- `IsValid`. -/
def IsValid (v : String) : Bool := (parse v.data).isSome

/-- `compareInt`: decimal strings without leading zeros compared as numbers. -/
def compareInt (x y : List Char) : Int :=
  if x = y then 0
  else if x.length < y.length then -1
  else if x.length > y.length then 1
  else if charsLess x y then -1
  else 1

/-- `nextIdent`: the text up to the next dot, and the rest. -/
def nextIdent (x : List Char) : List Char × List Char :=
  (x.takeWhile (fun c => c != '.'), x.dropWhile (fun c => c != '.'))

/-- The comparison of two different identifiers inside `comparePrerelease`. -/
def compareIdent (dx dy : List Char) : Int :=
  let ix := isNum dx
  let iy := isNum dy
  if ix != iy then
    if ix then -1 else 1
  else if ix && decide (dx.length < dy.length) then -1
  else if ix && decide (dx.length > dy.length) then 1
  else if charsLess dx dy then -1
  else 1

/-- The loop of `comparePrerelease` and the statement after it. Every turn of the loop
shortens `x`, so `fuel = x.length` turns are enough (`comparePrereleaseLoop_fuel`). -/
def comparePrereleaseLoop : Nat → List Char → List Char → Int
  | 0, x, _ => if x.isEmpty then -1 else 1
  | fuel + 1, x, y =>
    if !x.isEmpty && !y.isEmpty then
      let dx := (nextIdent x.tail).1
      let dy := (nextIdent y.tail).1
      if dx ≠ dy then compareIdent dx dy
      else comparePrereleaseLoop fuel (nextIdent x.tail).2 (nextIdent y.tail).2
    else if x.isEmpty then -1 else 1

/-- `comparePrerelease`. -/
def comparePrerelease (x y : List Char) : Int :=
  if x = y then 0
  else if x.isEmpty then 1
  else if y.isEmpty then -1
  else comparePrereleaseLoop x.length x y

/-- `Compare`: semantic version precedence; an invalid version is below every valid
one and all invalid versions compare equal. -/
def Compare (v w : String) : Int :=
  match parse v.data, parse w.data with
  | none, none => 0
  | none, some _ => -1
  | some _, none => 1
  | some pv, some pw =>
    if compareInt pv.major pw.major ≠ 0 then compareInt pv.major pw.major
    else if compareInt pv.minor pw.minor ≠ 0 then compareInt pv.minor pw.minor
    else if compareInt pv.patch pw.patch ≠ 0 then compareInt pv.patch pw.patch
    else comparePrerelease pv.prerelease pw.prerelease

/-- `compareVersion`: `Compare`, with `strings.Compare` to break ties. -/
def compareVersion (a b : String) : Int :=
  if Compare a b ≠ 0 then Compare a b else stringsCompare a b

/-- The order in which `Sort` arranges its argument: `compareVersion a b <= 0`. -/
def VersionLE (a b : String) : Prop := compareVersion a b ≤ 0

instance : DecidableRel VersionLE := fun a b => Int.decLe (compareVersion a b) 0

/-- The function `Sort` (a reserved word here, hence the small letter): the list
rearranged into ascending `compareVersion` order. As for `slicesSort`, the comparison
is a strict total order on strings, so the result does not depend on the sorting
algorithm (`Semver.sort_unique`). -/
def sort (list : List String) : List String :=
  list.insertionSort VersionLE

end Semver

/-! ## The command -/

/-- The error value returned by `RunE`. -/
inductive CmdError (ε : Type) where
  /-- the error of `crane.ListTags`, returned as it is. -/
  | listTags (e : ε) : CmdError ε
  /-- `fmt.Errorf("kernel version not found, try: %s", keys)`. -/
  | notFound (keys : List String) : CmdError ε
deriving DecidableEq

/-- The text of the not-found error: `%s` prints a `[]string` between square brackets,
the elements separated by blanks. -/
def notFoundMessage (keys : List String) : String :=
  "kernel version not found, try: [" ++ " ".intercalate keys ++ "]"

/-- What one call of `RunE` leaves behind: the lines written with `cmd.Println`, the
returned error, and the final content of the local map `tags`. -/
structure Run (ε : Type) where
  out : List String
  err : Option (CmdError ε)
  tags : Catalog
deriving DecidableEq

/-- Lines 69-80, version listing: the lines printed when no argument is given. `order`
is the order in which `range tags` happens to enumerate the keys of a map. -/
def versionListing (order : List String → List String) (tags : Catalog) : List String :=
  let versions := (order tags.keys).map (fun v => "v" ++ v)
  (Semver.sort versions).map (fun v => stringsTrimPrefix v "v")

/-- Lines 90-92: every bucket of the map is sorted in place. -/
def sortBuckets (order : List String → List String) (tags : Catalog) : Catalog :=
  (order tags.keys).foldl (fun m key => m.set key (slicesSort (m.get key))) tags

/-- Lines 82-96, tag listing for the requested `version`. -/
def tagListing {ε : Type} (order : List String → List String) (tags : Catalog)
    (version : String) : Run ε :=
  match tags.lookup version with
  | none => ⟨[], some (.notFound (order tags.keys)), tags⟩
  | some _ =>
    let tags' := sortBuckets order tags
    ⟨tags'.get version, none, tags'⟩

/-- The body of `RunE`: `listed` is what `crane.ListTags(repo)` returned, `args` the
positional arguments. -/
def runE {ε : Type} (order : List String → List String) (listed : Except ε (List String))
    (args : List String) : Run ε :=
  match listed with
  | .error e => ⟨[], some (.listTags e), []⟩
  | .ok rawTagList =>
    let tags := buildCatalog rawTagList
    match args with
    | [] => ⟨versionListing order tags, none, tags⟩
    | version :: _ => tagListing order tags version

/-- The command that `catalogCommand` builds, run with the flag value `repo` and the
positional arguments `args`; `listTags` stands for the dependency `crane.ListTags`
(line 48). -/
def catalogCommand {ε : Type} (listTags : String → Except ε (List String))
    (order : List String → List String) (repo : String) (args : List String) : Run ε :=
  runE order (listTags repo) args

/-! ## The tag pattern, in the words of the specification -/

/-- An ASCII digit. -/
def IsAsciiDigit (c : Char) : Prop := 48 ≤ c.toNat ∧ c.toNat ≤ 57

instance (c : Char) : Decidable (IsAsciiDigit c) := by
  unfold IsAsciiDigit
  infer_instance

/-- The suffix of the tag pattern on character lists: digits, a dot, digits, or `main`. -/
def SuffixChars (w : List Char) : Prop :=
  (∃ a b : List Char, a ≠ [] ∧ b ≠ [] ∧ (∀ c ∈ a, IsAsciiDigit c) ∧ (∀ c ∈ b, IsAsciiDigit c) ∧
    w = a ++ '.' :: b) ∨ w = ['m', 'a', 'i', 'n']

/-- The tag pattern on character lists: a non-empty label without line feed, a hyphen,
and a suffix. -/
def TagChars (s label suffix : List Char) : Prop :=
  label ≠ [] ∧ (∀ c ∈ label, c ≠ '\n') ∧ SuffixChars suffix ∧ s = label ++ '-' :: suffix

/-- The suffix of the tag pattern: one or more ASCII digits, a dot, one or more ASCII
digits, or the literal `main`. -/
def IsVersionSuffix (suffix : String) : Prop := SuffixChars suffix.data

/-- The string `sub` occurs inside `s`. -/
def HasSubstring (s sub : String) : Prop := ∃ a b : String, s = a ++ sub ++ b

/-- The classifier's contract as the specification words it: `tag` is `label`, a hyphen
and a suffix, the label is not empty and does not contain `-latest`. -/
def ClaimedKept (tag label : String) : Prop :=
  ∃ suffix : String, tag = label ++ "-" ++ suffix ∧ label ≠ "" ∧ IsVersionSuffix suffix ∧
    ¬ HasSubstring label "-latest"

/-- The classifier's contract as the code has it: as `ClaimedKept`, and the label has no
line feed in it. -/
def Kept (tag label : String) : Prop :=
  ∃ suffix : String, tag = label ++ "-" ++ suffix ∧ label ≠ "" ∧ (∀ c ∈ label.data, c ≠ '\n') ∧
    IsVersionSuffix suffix ∧ ¬ HasSubstring label "-latest"

/-! ## Auxiliary notions for the proofs -/

/-- The three-way comparison `f` behaves as a total preorder on the elements that
satisfy `S`: swapping the arguments negates the result, and `f a b <= 0` is transitive. -/
def CmpOK {α : Type} (S : α → Prop) (f : α → α → Int) : Prop :=
  (∀ a b, S a → S b → f b a = - f a b) ∧
    (∀ a b c, S a → S b → S c → f a b ≤ 0 → f b c ≤ 0 → f a c ≤ 0)

/-- The three-way comparison that belongs to a strict order given as a boolean test. -/
def cmpOfLess {α : Type} [DecidableEq α] (lt : α → α → Bool) (a b : α) : Int :=
  if a = b then 0 else if lt a b then -1 else 1

/-- Two comparisons in sequence: `f` decides, and `g` where `f` sees no difference. -/
def cmpThen {α : Type} (f g : α → α → Int) (a b : α) : Int :=
  if f a b ≠ 0 then f a b else g a b

/-- A missing value below every present one, all missing values alike, and the present
values compared by `f`. -/
def optionCmp {α : Type} (f : α → α → Int) : Option α → Option α → Int
  | none, none => 0
  | none, some _ => -1
  | some _, none => 1
  | some a, some b => f a b

/-- The text between the dots of `x`. -/
def splitDots : List Char → List (List Char)
  | [] => [[]]
  | c :: cs =>
    if c = '.' then [] :: splitDots cs
    else
      match splitDots cs with
      | [] => [[c]]
      | ident :: idents => (c :: ident) :: idents

/-- The identifiers of a prerelease string: it is empty, or a separator followed by
identifiers with dots between them. -/
def prereleaseKey : List Char → List (List Char)
  | [] => []
  | _ :: t => splitDots t

/-- The identifiers put together again, with dots between them. -/
def joinDots : List (List Char) → List Char
  | [] => []
  | [a] => a
  | a :: b :: rest => a ++ '.' :: joinDots (b :: rest)

/-- A prerelease string as `parse` produces it: empty, or beginning with a hyphen. -/
def PrereleaseShape (x : List Char) : Prop := x = [] ∨ ∃ t, x = '-' :: t

/-- The order of the identifiers of a prerelease, as the strict order it is. -/
def identLess (dx dy : List Char) : Bool :=
  if Semver.isNum dx then
    if Semver.isNum dy then
      decide (dx.length < dy.length) || (decide (dx.length = dy.length) && charsLess dx dy)
    else true
  else
    if Semver.isNum dy then false else charsLess dx dy

/-- Identifier lists compared from the left, a proper prefix first. -/
def identsCmp : List (List Char) → List (List Char) → Int
  | [], [] => 0
  | [], _ :: _ => -1
  | _ :: _, [] => 1
  | a :: as, b :: bs => if a ≠ b then cmpOfLess identLess a b else identsCmp as bs

/-- The order that `comparePrerelease` computes on prerelease strings: the empty string
above all others, the others by their identifiers. -/
def prereleaseCmp (x y : List Char) : Int :=
  if x = y then 0
  else if x = [] then 1
  else if y = [] then -1
  else identsCmp (prereleaseKey x) (prereleaseKey y)

/-- The order of `compareInt` as a strict order: shorter first, then `<`. -/
def shortLexLess (x y : List Char) : Bool :=
  decide (x.length < y.length) || (decide (x.length = y.length) && charsLess x y)

/-- The value of a string of decimal digits. -/
def decimalValue : List Char → Nat
  | [] => 0
  | c :: cs => (c.toNat - 48) * 10 ^ cs.length + decimalValue cs

/-- A decimal numeral without superfluous leading zero: `0`, or digits that begin with a
digit other than `0`. -/
def IsCanonicalDecimal (s : String) : Prop :=
  s.data ≠ [] ∧ (∀ c ∈ s.data, IsAsciiDigit c) ∧ (s.data.head? = some '0' → s.data = ['0'])

instance (s : String) : Decidable (IsCanonicalDecimal s) := by
  unfold IsCanonicalDecimal
  infer_instance

/-- The number that the numeral `s` denotes. -/
def numericValue (s : String) : Nat := decimalValue s.data

/-- The comparison of two parsed versions in `Compare`: major, minor, patch, prerelease. -/
def parsedCmp : Semver.Parsed → Semver.Parsed → Int :=
  cmpThen (fun p q => Semver.compareInt p.major q.major)
    (cmpThen (fun p q => Semver.compareInt p.minor q.minor)
      (cmpThen (fun p q => Semver.compareInt p.patch q.patch)
        (fun p q => Semver.comparePrerelease p.prerelease q.prerelease)))

/-! ## Lemmas on the matcher -/

theorem digitClass_iff (c : Char) : digitClass c = true ↔ IsAsciiDigit c := by
  simp [digitClass, rangeClass, IsAsciiDigit]

theorem stepClass_mem (cls : Char → Bool) (st st' : MatchState) :
    st' ∈ stepClass cls st ↔
      ∃ c, cls c = true ∧ st.rest = c :: st'.rest ∧ st'.pos = st.pos + 1 ∧ st'.caps = st.caps := by
  obtain ⟨p, r, k⟩ := st
  obtain ⟨p', r', k'⟩ := st'
  cases r with
  | nil => simp [stepClass]
  | cons c cs =>
    by_cases h : cls c = true
    · simp only [stepClass, h, if_true, List.mem_singleton, MatchState.mk.injEq, List.cons.injEq]
      constructor
      · rintro ⟨rfl, rfl, rfl⟩
        exact ⟨c, h, ⟨rfl, rfl⟩, rfl, rfl⟩
      · rintro ⟨c', _, ⟨rfl, rfl⟩, rfl, rfl⟩
        exact ⟨rfl, rfl, rfl⟩
    · simp only [stepClass, h, List.cons.injEq]
      constructor
      · intro hm
        simp at hm
      · rintro ⟨c', hc', ⟨rfl, _⟩, _⟩
        exact absurd hc' h

theorem plusStates_mem (cls : Char → Bool) (greedy : Bool) (caps : List (List Char))
    (rest : List Char) (pos : Nat) (st : MatchState) :
    st ∈ plusStates cls greedy caps pos rest ↔
      ∃ w, w ≠ [] ∧ (∀ c ∈ w, cls c = true) ∧ rest = w ++ st.rest ∧
        st.pos = pos + w.length ∧ st.caps = caps := by
  induction rest generalizing pos with
  | nil =>
    simp only [plusStates, List.not_mem_nil, false_iff]
    rintro ⟨w, hw, _, he, _⟩
    cases w with
    | nil => exact hw rfl
    | cons a w => simp at he
  | cons c cs ih =>
    by_cases hc : cls c = true
    · have hmem : st ∈ plusStates cls greedy caps pos (c :: cs) ↔
          (st ∈ plusStates cls greedy caps (pos + 1) cs ∨ st = ⟨pos + 1, cs, caps⟩) := by
        cases greedy <;> simp [plusStates, hc, or_comm]
      rw [hmem]
      constructor
      · intro h
        rcases h with h | h
        · obtain ⟨w, _, hall, he, hp, hk⟩ := (ih (pos + 1)).1 h
          refine ⟨c :: w, by simp, ?_, by simp [he], ?_, hk⟩
          · intro x hx
            rcases List.mem_cons.1 hx with rfl | hx
            · exact hc
            · exact hall x hx
          · simp only [List.length_cons]
            omega
        · subst h
          exact ⟨[c], by simp, by simpa using hc, by simp, by simp, rfl⟩
      · rintro ⟨w, hw, hall, he, hp, hk⟩
        cases w with
        | nil => exact absurd rfl hw
        | cons x w =>
          simp only [List.cons_append, List.cons.injEq] at he
          obtain ⟨rfl, he⟩ := he
          by_cases hw' : w = []
          · subst hw'
            right
            obtain ⟨p', r', k'⟩ := st
            simp only [List.nil_append, List.length_singleton] at he hp hk
            simp [he, hp, hk]
          · left
            refine (ih (pos + 1)).2 ⟨w, hw', fun y hy => hall y (List.mem_cons_of_mem _ hy), he, ?_, hk⟩
            simp only [List.length_cons] at hp
            omega
    · have hnil : plusStates cls greedy caps pos (c :: cs) = [] := by
        simp [plusStates, hc]
      rw [hnil]
      simp only [List.not_mem_nil, false_iff]
      rintro ⟨w, hw, hall, he, _⟩
      cases w with
      | nil => exact hw rfl
      | cons x w =>
        simp only [List.cons_append, List.cons.injEq] at he
        exact hc (he.1 ▸ hall x (List.mem_cons_self _ _))

theorem run_seq_mem (a b : Regex) (st st' : MatchState) :
    st' ∈ (Regex.seq a b).run st ↔ ∃ mid, mid ∈ a.run st ∧ st' ∈ b.run mid := by
  simp [Regex.run, List.mem_flatMap]

theorem run_lit_mem (c : Char) (st st' : MatchState) :
    st' ∈ (Regex.lit c).run st ↔
      st.rest = c :: st'.rest ∧ st'.pos = st.pos + 1 ∧ st'.caps = st.caps := by
  simp only [Regex.run, stepClass_mem, beq_iff_eq]
  constructor
  · rintro ⟨x, rfl, h⟩
    exact h
  · intro h
    exact ⟨c, rfl, h⟩

theorem run_plus_mem (cls : Char → Bool) (greedy : Bool) (st st' : MatchState) :
    st' ∈ (Regex.plus cls greedy).run st ↔
      ∃ w, w ≠ [] ∧ (∀ c ∈ w, cls c = true) ∧ st.rest = w ++ st'.rest ∧
        st'.pos = st.pos + w.length ∧ st'.caps = st.caps := by
  simp only [Regex.run, plusStates_mem]

theorem run_suffixRegex_mem (st st' : MatchState) :
    st' ∈ suffixRegex.run st ↔
      ∃ w, SuffixChars w ∧ st.rest = w ++ st'.rest ∧ st'.pos = st.pos + w.length ∧
        st'.caps = st.caps := by
  unfold suffixRegex
  rw [Regex.run, List.mem_append]
  simp only [run_seq_mem, run_lit_mem, run_plus_mem, digitClass_iff]
  constructor
  · rintro (⟨m1, ⟨a, ha, hda, hea, hpa, hka⟩, m2, ⟨hdot, hp2, hk2⟩, b, hb, hdb, heb, hpb, hkb⟩ |
      ⟨m1, ⟨h1, hp1, hk1⟩, m2, ⟨h2, hp2, hk2⟩, m3, ⟨h3, hp3, hk3⟩, h4, hp4, hk4⟩)
    · refine ⟨a ++ '.' :: b, Or.inl ⟨a, b, ha, hb, hda, hdb, rfl⟩, ?_, ?_, ?_⟩
      · rw [hea, hdot, heb]
        simp
      · rw [hpb, hp2, hpa]
        simp only [List.length_append, List.length_cons]
        omega
      · rw [hkb, hk2, hka]
    · refine ⟨['m', 'a', 'i', 'n'], Or.inr rfl, ?_, ?_, ?_⟩
      · rw [h1, h2, h3, h4]
        rfl
      · rw [hp4, hp3, hp2, hp1]
        rfl
      · rw [hk4, hk3, hk2, hk1]
  · rintro ⟨w, (⟨a, b, ha, hb, hda, hdb, rfl⟩ | rfl), he, hp, hk⟩
    · left
      refine ⟨⟨st.pos + a.length, '.' :: b ++ st'.rest, st.caps⟩, ⟨a, ha, hda, ?_, rfl, rfl⟩,
        ⟨st.pos + a.length + 1, b ++ st'.rest, st.caps⟩, ⟨rfl, rfl, rfl⟩, b, hb, hdb, rfl, ?_, hk⟩
      · rw [he]
        simp
      · rw [hp]
        simp only [List.length_append, List.length_cons]
        omega
    · right
      refine ⟨⟨st.pos + 1, 'a' :: 'i' :: 'n' :: st'.rest, st.caps⟩, ⟨by rw [he]; rfl, rfl, rfl⟩,
        ⟨st.pos + 2, 'i' :: 'n' :: st'.rest, st.caps⟩, ⟨rfl, rfl, rfl⟩,
        ⟨st.pos + 3, 'n' :: st'.rest, st.caps⟩, ⟨rfl, rfl, rfl⟩, rfl, ?_, hk⟩
      rw [hp]
      rfl

theorem run_group_mem (i : Nat) (a : Regex) (st st' : MatchState) :
    st' ∈ (Regex.group i a).run st ↔
      ∃ m, m ∈ a.run st ∧
        st' = ⟨m.pos, m.rest, m.caps.set (i - 1) (st.rest.take (m.pos - st.pos))⟩ := by
  simp only [Regex.run, List.mem_map]
  constructor
  · rintro ⟨m, hm, rfl⟩
    exact ⟨m, hm, rfl⟩
  · rintro ⟨m, hm, rfl⟩
    exact ⟨m, hm, rfl⟩

theorem run_tagRegex_mem (greedy : Bool) (pos : Nat) (s : List Char) (st : MatchState) :
    st ∈ (tagRegex greedy).run ⟨pos, s, [[], []]⟩ ↔
      pos = 0 ∧ ∃ label suffix, TagChars s label suffix ∧ st = ⟨s.length, [], [label, suffix]⟩ := by
  unfold tagRegex
  simp only [run_seq_mem, run_group_mem, run_lit_mem, run_plus_mem, run_suffixRegex_mem]
  constructor
  · rintro ⟨m0, hm0, m1, ⟨m1', ⟨l, hl, hdl, hel, hpl, hkl⟩, rfl⟩, m2, ⟨hdash, hp2, hk2⟩, m3,
      ⟨m3', ⟨x, hx, hex, hpx, hkx⟩, rfl⟩, hend⟩
    simp only [Regex.run] at hm0 hend
    split at hm0
    · rename_i hpos
      simp only [List.mem_singleton] at hm0
      subst hm0
      simp only at hpos hel hpl hkl hdash hp2 hk2 hex hpx hkx hend
      split at hend
      · rename_i hnil
        simp only [List.mem_singleton] at hend
        simp only [List.isEmpty_iff] at hnil
        subst hpos
        have hs : s = l ++ '-' :: x := by
          rw [hel, hdash, hex, hnil]
          simp
        refine ⟨rfl, l, x, ⟨hl, ?_, hx, hs⟩, ?_⟩
        · intro c hc
          simpa [dotClass] using hdl c hc
        · have h1 : List.take (m1'.pos - 0) s = l := by
            rw [hpl, hs]
            simp
          have h2 : List.take (m3'.pos - m2.pos) m2.rest = x := by
            rw [hpx, hex, hnil]
            simp
          have h3 : m3'.pos = s.length := by
            rw [hpx, hp2, hpl, hs]
            simp only [List.length_append, List.length_cons]
            omega
          rw [hend, h2, hkx, hk2, h1, hkl, hnil, h3]
          simp
      · simp at hend
    · simp at hm0
  · rintro ⟨rfl, label, suffix, ⟨hl, hnl, hx, hs⟩, rfl⟩
    refine ⟨⟨0, s, [[], []]⟩, by simp [Regex.run],
      ⟨label.length, '-' :: suffix, [label, []]⟩,
      ⟨⟨label.length, '-' :: suffix, [[], []]⟩, ⟨label, hl, ?_, hs, by simp, rfl⟩, ?_⟩,
      ⟨label.length + 1, suffix, [label, []]⟩, ⟨rfl, rfl, rfl⟩,
      ⟨s.length, [], [label, suffix]⟩,
      ⟨⟨s.length, [], [label, []]⟩, ⟨suffix, hx, by simp, ?_, rfl⟩, ?_⟩, by simp [Regex.run]⟩
    · intro c hc
      simpa [dotClass] using hnl c hc
    · simp [hs]
    · simp only [hs, List.length_append, List.length_cons]
      omega
    · simp only [hs, List.length_append, List.length_cons, MatchState.mk.injEq, true_and]
      have : label.length + (suffix.length + 1) - (label.length + 1) = suffix.length := by omega
      simp [this]

theorem isAsciiDigit_ne_hyphen {c : Char} (h : IsAsciiDigit c) : c ≠ '-' := by
  rintro rfl
  have h1 := h.1
  revert h1
  decide

theorem suffixChars_no_hyphen {w : List Char} (h : SuffixChars w) : '-' ∉ w := by
  rcases h with ⟨a, b, _, _, hda, hdb, rfl⟩ | rfl
  · intro hm
    rcases List.mem_append.1 hm with hm | hm
    · exact isAsciiDigit_ne_hyphen (hda _ hm) rfl
    · rcases List.mem_cons.1 hm with hm | hm
      · revert hm
        decide
      · exact isAsciiDigit_ne_hyphen (hdb _ hm) rfl
  · decide

theorem split_last_hyphen_unique (l1 l2 x1 x2 : List Char) (h1 : '-' ∉ x1) (h2 : '-' ∉ x2)
    (h : l1 ++ '-' :: x1 = l2 ++ '-' :: x2) : l1 = l2 ∧ x1 = x2 := by
  induction l1 generalizing l2 with
  | nil =>
    cases l2 with
    | nil => simpa using h
    | cons c l2 =>
      simp only [List.nil_append, List.cons_append, List.cons.injEq] at h
      exact absurd (h.2 ▸ (by simp : '-' ∈ l2 ++ '-' :: x2)) h1
  | cons c l1 ih =>
    cases l2 with
    | nil =>
      simp only [List.nil_append, List.cons_append, List.cons.injEq] at h
      exact absurd (h.2 ▸ (by simp : '-' ∈ l1 ++ '-' :: x1)) h2
    | cons d l2 =>
      simp only [List.cons_append, List.cons.injEq] at h
      obtain ⟨rfl, h⟩ := h
      obtain ⟨rfl, rfl⟩ := ih l2 h
      exact ⟨rfl, rfl⟩

theorem tagChars_unique {s l1 x1 l2 x2 : List Char} (h1 : TagChars s l1 x1)
    (h2 : TagChars s l2 x2) : l1 = l2 ∧ x1 = x2 :=
  split_last_hyphen_unique l1 l2 x1 x2 (suffixChars_no_hyphen h1.2.2.1)
    (suffixChars_no_hyphen h2.2.2.1) (h1.2.2.2.symm.trans h2.2.2.2)

theorem numSubexp_tagRegex (greedy : Bool) :
    List.replicate (tagRegex greedy).numSubexp ([] : List Char) = [[], []] := rfl

theorem run_tagRegex_pos (greedy : Bool) (pos : Nat) (hpos : pos ≠ 0) (s : List Char) :
    (tagRegex greedy).run ⟨pos, s, [[], []]⟩ = [] := by
  rw [List.eq_nil_iff_forall_not_mem]
  intro st hst
  exact hpos ((run_tagRegex_mem greedy pos s st).1 hst).1

theorem findFrom_tagRegex_pos (greedy : Bool) (s : List Char) (pos : Nat) (hpos : pos ≠ 0) :
    findFrom (tagRegex greedy) pos s = [] := by
  induction s generalizing pos with
  | nil => simp [findFrom, numSubexp_tagRegex, run_tagRegex_pos greedy pos hpos]
  | cons c cs ih =>
    simp only [findFrom, numSubexp_tagRegex, run_tagRegex_pos greedy pos hpos]
    exact ih (pos + 1) (by omega)

/-- The tag pattern decides the regular expression: a conforming text gives the whole
text, its label and its suffix. -/
theorem findFrom_tagRegex_match (greedy : Bool) {s label suffix : List Char}
    (h : TagChars s label suffix) :
    findFrom (tagRegex greedy) 0 s = [s, label, suffix] := by
  have hex : (⟨s.length, [], [label, suffix]⟩ : MatchState) ∈
      (tagRegex greedy).run ⟨0, s, [[], []]⟩ :=
    (run_tagRegex_mem greedy 0 s _).2 ⟨rfl, label, suffix, h, rfl⟩
  have hall : ∀ st ∈ (tagRegex greedy).run ⟨0, s, [[], []]⟩,
      st = ⟨s.length, [], [label, suffix]⟩ := by
    intro st hst
    obtain ⟨_, l2, x2, h2, rfl⟩ := (run_tagRegex_mem greedy 0 s st).1 hst
    obtain ⟨rfl, rfl⟩ := tagChars_unique h h2
    rfl
  cases hrun : (tagRegex greedy).run ⟨0, s, [[], []]⟩ with
  | nil => rw [hrun] at hex; simp at hex
  | cons st tl =>
    have hst := hall st (by rw [hrun]; simp)
    cases s with
    | nil => exact absurd h.2.2.2 (by simp)
    | cons c cs =>
      simp only [findFrom, numSubexp_tagRegex, hrun, hst]
      simp

/-- A text that does not conform to the tag pattern is not matched. -/
theorem findFrom_tagRegex_nomatch (greedy : Bool) {s : List Char}
    (h : ¬ ∃ label suffix, TagChars s label suffix) :
    findFrom (tagRegex greedy) 0 s = [] := by
  have hrun : (tagRegex greedy).run ⟨0, s, [[], []]⟩ = [] := by
    rw [List.eq_nil_iff_forall_not_mem]
    intro st hst
    obtain ⟨_, l, x, hlx, _⟩ := (run_tagRegex_mem greedy 0 s st).1 hst
    exact h ⟨l, x, hlx⟩
  cases s with
  | nil => simp [findFrom, numSubexp_tagRegex, hrun]
  | cons c cs =>
    simp only [findFrom, numSubexp_tagRegex, hrun]
    exact findFrom_tagRegex_pos greedy cs 1 (by omega)

/-! ## Lemmas on `strings` -/

theorem hasPrefix_iff (s p : List Char) : hasPrefix s p = true ↔ ∃ t, s = p ++ t := by
  induction p generalizing s with
  | nil => simp [hasPrefix]
  | cons c p ih =>
    cases s with
    | nil => simp [hasPrefix]
    | cons d s =>
      simp only [hasPrefix, Bool.and_eq_true, beq_iff_eq, ih, List.cons_append, List.cons.injEq]
      constructor
      · rintro ⟨rfl, t, rfl⟩
        exact ⟨t, rfl, rfl⟩
      · rintro ⟨t, rfl, rfl⟩
        exact ⟨rfl, t, rfl⟩

theorem containsChars_iff (s sub : List Char) :
    containsChars s sub = true ↔ ∃ a b, s = a ++ sub ++ b := by
  induction s with
  | nil =>
    simp only [containsChars, hasPrefix_iff]
    constructor
    · rintro ⟨t, h⟩
      exact ⟨[], t, by simpa using h⟩
    · rintro ⟨a, b, h⟩
      have h' := h.symm
      simp only [List.append_eq_nil, List.append_assoc] at h'
      exact ⟨[], by simp [h'.2.1]⟩
  | cons c cs ih =>
    simp only [containsChars, Bool.or_eq_true, hasPrefix_iff, ih]
    constructor
    · rintro (⟨t, h⟩ | ⟨a, b, h⟩)
      · exact ⟨[], t, by simpa using h⟩
      · exact ⟨c :: a, b, by simp [h]⟩
    · rintro ⟨a, b, h⟩
      cases a with
      | nil => exact Or.inl ⟨b, by simpa using h⟩
      | cons d a =>
        simp only [List.cons_append, List.cons.injEq] at h
        exact Or.inr ⟨a, b, by simpa using h.2⟩

theorem stringsContains_iff (s sub : String) :
    stringsContains s sub = true ↔ HasSubstring s sub := by
  unfold stringsContains HasSubstring
  rw [containsChars_iff]
  constructor
  · rintro ⟨a, b, h⟩
    exact ⟨⟨a⟩, ⟨b⟩, String.ext (by simpa using h)⟩
  · rintro ⟨a, b, h⟩
    exact ⟨a.data, b.data, by simp [h]⟩

theorem stringsTrimPrefix_append (p s : String) : stringsTrimPrefix (p ++ s) p = s := by
  have h : hasPrefix (p ++ s).data p.data = true := (hasPrefix_iff _ _).2 ⟨s.data, by simp⟩
  unfold stringsTrimPrefix
  rw [if_pos h]
  exact String.ext (by simp)

/-! ## Lemmas on the classifier -/

theorem tagChars_iff (tag label suffix : String) :
    TagChars tag.data label.data suffix.data ↔
      (tag = label ++ "-" ++ suffix ∧ label ≠ "" ∧ (∀ c ∈ label.data, c ≠ '\n') ∧
        IsVersionSuffix suffix) := by
  have h1 : tag = label ++ "-" ++ suffix ↔ tag.data = label.data ++ '-' :: suffix.data := by
    rw [String.ext_iff]
    simp
  have h2 : label ≠ "" ↔ label.data ≠ [] := by
    rw [Ne, String.ext_iff]
  unfold TagChars IsVersionSuffix
  rw [h1, h2]
  tauto

theorem classify_eq_some_iff (tag label stored : String) :
    classify tag = some (label, stored) ↔ stored = tag ∧ Kept tag label := by
  unfold classify FindStringSubmatch kernelTagRegex
  by_cases hex : ∃ l x, TagChars tag.data l x
  · obtain ⟨l, x, hlx⟩ := hex
    rw [findFrom_tagRegex_match true hlx]
    simp only [List.map_cons, List.map_nil, List.length_cons, List.length_nil, List.getD_cons_succ,
      List.getD_cons_zero]
    have hlx' : TagChars tag.data (String.mk l).data (String.mk x).data := hlx
    by_cases hlat : stringsContains ⟨l⟩ "-latest" = true
    · simp only [hlat, if_true]
      constructor
      · intro h
        simp at h
      · rintro ⟨_, suffix, h1, h2, h3, h4, h5⟩
        have ht := (tagChars_iff tag label suffix).2 ⟨h1, h2, h3, h4⟩
        obtain ⟨hl, _⟩ := tagChars_unique hlx ht
        have : label = ⟨l⟩ := String.ext hl.symm
        subst this
        exact absurd ((stringsContains_iff _ _).1 hlat) h5
    · simp only [hlat]
      constructor
      · intro h
        simp only [Nat.lt_irrefl, if_false, Bool.false_eq_true, Option.some.injEq,
          Prod.mk.injEq] at h
        obtain ⟨rfl, rfl⟩ := h
        obtain ⟨h1, h2, h3, h4⟩ := (tagChars_iff tag ⟨l⟩ ⟨x⟩).1 hlx'
        exact ⟨rfl, ⟨x⟩, h1, h2, h3, h4, fun hc => hlat ((stringsContains_iff _ _).2 hc)⟩
      · rintro ⟨hst, suffix, h1, h2, h3, h4, h5⟩
        have ht := (tagChars_iff tag label suffix).2 ⟨h1, h2, h3, h4⟩
        obtain ⟨hl, _⟩ := tagChars_unique hlx ht
        have : label = ⟨l⟩ := String.ext hl.symm
        subst this
        subst hst
        simp
  · rw [findFrom_tagRegex_nomatch true hex]
    simp only [List.map_nil, List.length_nil]
    constructor
    · intro h
      simp at h
    · rintro ⟨_, suffix, h1, h2, h3, h4, _⟩
      exact absurd ⟨label.data, suffix.data, (tagChars_iff tag label suffix).2 ⟨h1, h2, h3, h4⟩⟩ hex

theorem classify_eq_none_iff (tag : String) :
    classify tag = none ↔ ¬ ∃ label, Kept tag label := by
  constructor
  · rintro h ⟨label, hk⟩
    have := (classify_eq_some_iff tag label tag).2 ⟨rfl, hk⟩
    rw [h] at this
    exact absurd this (by simp)
  · intro h
    cases hc : classify tag with
    | none => rfl
    | some p =>
      obtain ⟨label, stored⟩ := p
      exact absurd ⟨label, ((classify_eq_some_iff tag label stored).1 hc).2⟩ h

/-! ## Lemmas on the map -/

theorem Catalog.lookup_set (tags : Catalog) (k k' : String) (v : List String) :
    Catalog.lookup (Catalog.set tags k v) k' = if k = k' then some v else Catalog.lookup tags k' := by
  induction tags with
  | nil =>
    by_cases h : k = k' <;> simp [Catalog.set, Catalog.lookup, h]
  | cons e rest ih =>
    obtain ⟨k0, v0⟩ := e
    by_cases h0 : k0 = k
    · subst h0
      by_cases h : k0 = k' <;> simp [Catalog.set, Catalog.lookup, h]
    · by_cases h : k = k'
      · subst h
        simp [Catalog.set, Catalog.lookup, h0, ih]
      · by_cases h1 : k0 = k'
        · subst h1
          simp [Catalog.set, Catalog.lookup, h0, h]
        · simp [Catalog.set, Catalog.lookup, h0, h1, h, ih]

theorem Catalog.mem_keys_iff (tags : Catalog) (k : String) :
    k ∈ Catalog.keys tags ↔ Catalog.lookup tags k ≠ none := by
  induction tags with
  | nil => simp [Catalog.keys, Catalog.lookup]
  | cons e rest ih =>
    obtain ⟨k0, v0⟩ := e
    by_cases h : k0 = k
    · simp [Catalog.keys, Catalog.lookup, h]
    · have ih' : k ∈ List.map Prod.fst rest ↔ Catalog.lookup rest k ≠ none := ih
      simp only [Catalog.keys, List.map_cons, List.mem_cons, Catalog.lookup, h, if_false, ih']
      constructor
      · rintro (h' | h')
        · exact absurd h'.symm h
        · exact h'
      · intro h'
        exact Or.inr h'

theorem Catalog.keys_set_of_mem (tags : Catalog) (k : String) (v : List String)
    (h : k ∈ Catalog.keys tags) : Catalog.keys (Catalog.set tags k v) = Catalog.keys tags := by
  induction tags with
  | nil => simp [Catalog.keys] at h
  | cons e rest ih =>
    obtain ⟨k0, v0⟩ := e
    by_cases h0 : k0 = k
    · simp [Catalog.set, Catalog.keys, h0]
    · have hk : k ∈ Catalog.keys rest := by
        simp only [Catalog.keys, List.map_cons, List.mem_cons] at h
        rcases h with h | h
        · exact absurd h.symm h0
        · exact h
      have := ih hk
      simp only [Catalog.keys] at this
      simp [Catalog.set, Catalog.keys, h0, this]

theorem Catalog.keys_set_of_not_mem (tags : Catalog) (k : String) (v : List String)
    (h : k ∉ Catalog.keys tags) :
    Catalog.keys (Catalog.set tags k v) = Catalog.keys tags ++ [k] := by
  induction tags with
  | nil => simp [Catalog.keys, Catalog.set]
  | cons e rest ih =>
    obtain ⟨k0, v0⟩ := e
    simp only [Catalog.keys, List.map_cons, List.mem_cons, not_or] at h
    have h0 : ¬ k0 = k := fun e => h.1 e.symm
    have := ih h.2
    simp only [Catalog.keys] at this
    simp [Catalog.set, Catalog.keys, h0, this]

theorem Catalog.keys_set_nodup (tags : Catalog) (k : String) (v : List String)
    (h : (Catalog.keys tags).Nodup) : (Catalog.keys (Catalog.set tags k v)).Nodup := by
  by_cases hk : k ∈ Catalog.keys tags
  · rw [Catalog.keys_set_of_mem tags k v hk]
    exact h
  · rw [Catalog.keys_set_of_not_mem tags k v hk]
    exact List.Nodup.append h (List.nodup_singleton k) (by simpa using hk)

theorem Catalog.lookup_of_mem (tags : Catalog) (h : (Catalog.keys tags).Nodup) (k : String)
    (v : List String) (hm : (k, v) ∈ tags) : Catalog.lookup tags k = some v := by
  induction tags with
  | nil => simp at hm
  | cons e rest ih =>
    obtain ⟨k0, v0⟩ := e
    simp only [Catalog.keys, List.map_cons, List.nodup_cons] at h
    rcases List.mem_cons.1 hm with hm | hm
    · simp only [Prod.mk.injEq] at hm
      simp [Catalog.lookup, hm.1, hm.2]
    · have hne : ¬ k0 = k := by
        rintro rfl
        exact h.1 (List.mem_map.2 ⟨(k0, v), hm, rfl⟩)
      simp only [Catalog.lookup, hne, if_false]
      exact ih h.2 hm

/-! ## Lemmas on the catalog builder -/

/-- One turn of the loop of lines 54-67. -/
theorem buildCatalog_eq_foldl (raws : List String) :
    buildCatalog raws = raws.foldl
      (fun tags tag =>
        match classify tag with
        | none => tags
        | some (label, full) => Catalog.set tags label (Catalog.get tags label ++ [full])) [] := rfl

theorem classify_stored (tag label stored : String) (h : classify tag = some (label, stored)) :
    stored = tag := ((classify_eq_some_iff tag label stored).1 h).1

theorem foldl_lookup (raws : List String) (acc : Catalog) (L : String) :
    Catalog.lookup (raws.foldl
      (fun tags tag =>
        match classify tag with
        | none => tags
        | some (label, full) => Catalog.set tags label (Catalog.get tags label ++ [full])) acc) L =
      if keptWith L raws = [] then Catalog.lookup acc L
      else some (Catalog.get acc L ++ keptWith L raws) := by
  induction raws generalizing acc with
  | nil => simp [keptWith]
  | cons t ts ih =>
    rw [List.foldl_cons, ih]
    cases hc : classify t with
    | none =>
      have hk : keptWith L (t :: ts) = keptWith L ts := by
        simp [keptWith, List.filter_cons, hc]
      rw [hk]
    | some p =>
      obtain ⟨l, full⟩ := p
      have hfull : full = t := classify_stored t l full hc
      subst hfull
      by_cases hl : l = L
      · subst hl
        have hk : keptWith l (full :: ts) = full :: keptWith l ts := by
          simp [keptWith, List.filter_cons, hc]
        rw [hk]
        simp only [Catalog.lookup_set, if_true, Catalog.get, Option.getD_some, List.append_assoc,
          List.singleton_append]
        by_cases hts : keptWith l ts = []
        · simp [hts]
        · simp [hts]
      · have hk : keptWith L (full :: ts) = keptWith L ts := by
          simp [keptWith, List.filter_cons, hc, hl]
        rw [hk]
        simp only [Catalog.lookup_set, hl, if_false, Catalog.get]

/-- The bucket of every label is the list of raw tags kept with that label. -/
theorem buildCatalog_lookup (raws : List String) (L : String) :
    Catalog.lookup (buildCatalog raws) L =
      if keptWith L raws = [] then none else some (keptWith L raws) := by
  rw [buildCatalog_eq_foldl, foldl_lookup]
  simp [Catalog.lookup, Catalog.get]

theorem foldl_keys_nodup (raws : List String) (acc : Catalog) (h : (Catalog.keys acc).Nodup) :
    (Catalog.keys (raws.foldl
      (fun tags tag =>
        match classify tag with
        | none => tags
        | some (label, full) => Catalog.set tags label (Catalog.get tags label ++ [full]))
      acc)).Nodup := by
  induction raws generalizing acc with
  | nil => exact h
  | cons t ts ih =>
    rw [List.foldl_cons]
    apply ih
    cases hc : classify t with
    | none => exact h
    | some p => exact Catalog.keys_set_nodup _ _ _ h

/-- A Go map has every key once, and so has the model of the catalog. -/
theorem buildCatalog_keys_nodup (raws : List String) : (Catalog.keys (buildCatalog raws)).Nodup :=
  foldl_keys_nodup raws [] (by simp [Catalog.keys])

theorem mem_keptWith (L : String) (raws : List String) (t : String) :
    t ∈ keptWith L raws ↔ t ∈ raws ∧ classify t = some (L, t) := by
  simp only [keptWith, List.mem_filter, decide_eq_true_eq, Option.map_eq_some', Prod.exists,
    exists_and_right, exists_eq_right]
  constructor
  · rintro ⟨h, stored, hs⟩
    have := classify_stored t L stored hs
    subst this
    exact ⟨h, hs⟩
  · rintro ⟨h, hs⟩
    exact ⟨h, t, hs⟩

/-! ## Lemmas on the string order -/

theorem char_eq_of_toNat_eq {a b : Char} (h : a.toNat = b.toNat) : a = b := by
  rw [← Char.ofNat_toNat a, ← Char.ofNat_toNat b, h]

theorem charsLess_asymm (a b : List Char) (h : charsLess a b = true) : charsLess b a = false := by
  induction a generalizing b with
  | nil => cases b <;> simp [charsLess] at h ⊢
  | cons c cs ih =>
    cases b with
    | nil => simp [charsLess] at h
    | cons d ds =>
      simp only [charsLess] at h ⊢
      by_cases h1 : c.toNat < d.toNat
      · have h2 : ¬ d.toNat < c.toNat := by omega
        simp [h1, h2]
      · by_cases h2 : d.toNat < c.toNat
        · simp [h1, h2] at h
        · simp only [h1, h2, if_false] at h ⊢
          exact ih ds h

theorem charsLess_trans (a b c : List Char) (hab : charsLess a b = true)
    (hbc : charsLess b c = true) : charsLess a c = true := by
  induction a generalizing b c with
  | nil =>
    cases b with
    | nil => simp [charsLess] at hab
    | cons d ds =>
      cases c with
      | nil => simp [charsLess] at hbc
      | cons e es => simp [charsLess]
  | cons x xs ih =>
    cases b with
    | nil => simp [charsLess] at hab
    | cons d ds =>
      cases c with
      | nil => simp [charsLess] at hbc
      | cons e es =>
        simp only [charsLess] at hab hbc ⊢
        by_cases h1 : x.toNat < d.toNat
        · by_cases h2 : d.toNat < e.toNat
          · have : x.toNat < e.toNat := by omega
            simp [this]
          · by_cases h3 : e.toNat < d.toNat
            · simp [h2, h3] at hbc
            · have : x.toNat < e.toNat := by omega
              simp [this]
        · by_cases h1' : d.toNat < x.toNat
          · simp [h1, h1'] at hab
          · simp only [h1, h1', if_false] at hab
            by_cases h2 : d.toNat < e.toNat
            · have : x.toNat < e.toNat := by omega
              simp [this]
            · by_cases h3 : e.toNat < d.toNat
              · simp [h2, h3] at hbc
              · simp only [h2, h3, if_false] at hbc
                have h4 : ¬ x.toNat < e.toNat := by omega
                have h5 : ¬ e.toNat < x.toNat := by omega
                simp only [h4, h5, if_false]
                exact ih ds es hab hbc

theorem charsLess_total (a b : List Char) (h : a ≠ b) :
    charsLess a b = true ∨ charsLess b a = true := by
  induction a generalizing b with
  | nil =>
    cases b with
    | nil => exact absurd rfl h
    | cons d ds => simp [charsLess]
  | cons c cs ih =>
    cases b with
    | nil => simp [charsLess]
    | cons d ds =>
      simp only [charsLess]
      by_cases h1 : c.toNat < d.toNat
      · simp [h1]
      · by_cases h2 : d.toNat < c.toNat
        · simp [h1, h2]
        · have hcd : c = d := char_eq_of_toNat_eq (by omega)
          subst hcd
          simp only [h1, if_false]
          exact ih ds (fun e => h (by rw [e]))

theorem stringLess_asymm (a b : String) (h : stringLess a b = true) : stringLess b a = false :=
  charsLess_asymm a.data b.data h

theorem stringLess_trans (a b c : String) (hab : stringLess a b = true)
    (hbc : stringLess b c = true) : stringLess a c = true :=
  charsLess_trans a.data b.data c.data hab hbc

theorem stringLess_total (a b : String) (h : a ≠ b) :
    stringLess a b = true ∨ stringLess b a = true :=
  charsLess_total a.data b.data (fun e => h (String.ext e))

theorem StringLE_total (a b : String) : StringLE a b ∨ StringLE b a := by
  unfold StringLE
  by_cases h : stringLess b a = true
  · exact Or.inr (stringLess_asymm b a h)
  · exact Or.inl (by simpa using h)

theorem StringLE_trans (a b c : String) (hab : StringLE a b) (hbc : StringLE b c) :
    StringLE a c := by
  unfold StringLE at *
  by_contra hca
  have hca' : stringLess c a = true := by simpa using hca
  by_cases hab' : a = b
  · subst hab'
    rw [hca'] at hbc
    exact absurd hbc (by simp)
  · rcases stringLess_total a b hab' with h | h
    · have := stringLess_trans c a b hca' h
      rw [this] at hbc
      exact absurd hbc (by simp)
    · rw [h] at hab
      exact absurd hab (by simp)

theorem StringLE_antisymm (a b : String) (hab : StringLE a b) (hba : StringLE b a) : a = b := by
  unfold StringLE at *
  by_contra hne
  rcases stringLess_total a b hne with h | h
  · rw [h] at hba
    exact absurd hba (by simp)
  · rw [h] at hab
    exact absurd hab (by simp)

/-- The result of `slices.Sort` is in ascending order. -/
theorem slicesSort_sorted (l : List String) : (slicesSort l).Sorted StringLE :=
  haveI : IsTotal String StringLE := ⟨StringLE_total⟩
  haveI : IsTrans String StringLE := ⟨StringLE_trans⟩
  List.sorted_insertionSort StringLE l

/-- The result of `slices.Sort` is a rearrangement of its argument. -/
theorem slicesSort_perm (l : List String) : (slicesSort l).Perm l :=
  List.perm_insertionSort StringLE l

/-- There is one ascending rearrangement only, whatever the algorithm that finds it. -/
theorem slicesSort_unique (l l' : List String) (hp : l'.Perm l) (hs : l'.Sorted StringLE) :
    l' = slicesSort l :=
  haveI : IsAntisymm String StringLE := ⟨StringLE_antisymm⟩
  List.eq_of_perm_of_sorted (hp.trans (slicesSort_perm l).symm) hs (slicesSort_sorted l)

theorem slicesSort_idem (l : List String) : slicesSort (slicesSort l) = slicesSort l :=
  (slicesSort_unique (slicesSort l) (slicesSort l) (List.Perm.refl _) (slicesSort_sorted l)).symm

theorem slicesSort_congr {l l' : List String} (hp : l.Perm l') : slicesSort l = slicesSort l' :=
  slicesSort_unique l' (slicesSort l) ((slicesSort_perm l).trans hp) (slicesSort_sorted l)

/-! ## Lemmas on the tag listing -/

theorem foldl_sort_lookup (ks : List String) (m : Catalog) (k : String)
    (hks : ∀ key ∈ ks, key ∈ Catalog.keys m) :
    Catalog.lookup (ks.foldl (fun m key => Catalog.set m key (slicesSort (Catalog.get m key))) m) k =
      if k ∈ ks then (Catalog.lookup m k).map slicesSort else Catalog.lookup m k := by
  induction ks generalizing m with
  | nil => simp
  | cons key ks ih =>
    have hkey : key ∈ Catalog.keys m := hks key (List.mem_cons_self _ _)
    have hks' : ∀ x ∈ ks, x ∈ Catalog.keys (Catalog.set m key (slicesSort (Catalog.get m key))) := by
      intro x hx
      rw [Catalog.keys_set_of_mem m key _ hkey]
      exact hks x (List.mem_cons_of_mem _ hx)
    rw [List.foldl_cons, ih _ hks']
    obtain ⟨b, hb⟩ : ∃ b, Catalog.lookup m key = some b := by
      have := (Catalog.mem_keys_iff m key).1 hkey
      exact Option.ne_none_iff_exists'.1 this
    by_cases hk : key = k
    · subst hk
      simp [Catalog.lookup_set, Catalog.get, hb, slicesSort_idem]
    · have hk' : ¬ k = key := fun e => hk e.symm
      simp [Catalog.lookup_set, hk, hk']

theorem sortBuckets_lookup (order : List String → List String)
    (horder : ∀ l, (order l).Perm l) (tags : Catalog) (k : String) :
    Catalog.lookup (sortBuckets order tags) k = (Catalog.lookup tags k).map slicesSort := by
  unfold sortBuckets
  rw [foldl_sort_lookup _ _ _ (fun key hkey => (horder _).mem_iff.1 hkey)]
  by_cases hk : k ∈ Catalog.keys tags
  · rw [if_pos ((horder _).mem_iff.2 hk)]
  · rw [if_neg (fun h => hk ((horder _).mem_iff.1 h))]
    have : Catalog.lookup tags k = none := by
      by_contra hne
      exact hk ((Catalog.mem_keys_iff tags k).2 hne)
    simp [this]

theorem foldl_sort_keys (ks : List String) (m : Catalog)
    (hks : ∀ key ∈ ks, key ∈ Catalog.keys m) :
    Catalog.keys (ks.foldl (fun m key => Catalog.set m key (slicesSort (Catalog.get m key))) m) =
      Catalog.keys m := by
  induction ks generalizing m with
  | nil => rfl
  | cons k ks ih =>
    have hkey : k ∈ Catalog.keys m := hks k (List.mem_cons_self _ _)
    have hset := Catalog.keys_set_of_mem m k (slicesSort (Catalog.get m k)) hkey
    rw [List.foldl_cons, ih, hset]
    intro x hx
    rw [hset]
    exact hks x (List.mem_cons_of_mem _ hx)

theorem sortBuckets_keys (order : List String → List String)
    (horder : ∀ l, (order l).Perm l) (tags : Catalog) :
    Catalog.keys (sortBuckets order tags) = Catalog.keys tags :=
  foldl_sort_keys _ _ (fun _ hkey => (horder _).mem_iff.1 hkey)

/-- Tag listing, found case: what is printed is the requested bucket, sorted. -/
theorem tagListing_found {ε : Type} (order : List String → List String)
    (horder : ∀ l, (order l).Perm l) (tags : Catalog) (version : String) (bucket : List String)
    (h : Catalog.lookup tags version = some bucket) :
    (tagListing order tags version : Run ε) =
      ⟨slicesSort bucket, none, sortBuckets order tags⟩ := by
  unfold tagListing
  rw [h]
  simp [Catalog.get, sortBuckets_lookup order horder, h]

/-- Tag listing, not-found case. -/
theorem tagListing_not_found {ε : Type} (order : List String → List String)
    (tags : Catalog) (version : String) (h : Catalog.lookup tags version = none) :
    (tagListing order tags version : Run ε) =
      ⟨[], some (.notFound (order (Catalog.keys tags))), tags⟩ := by
  unfold tagListing
  rw [h]

/-! ## Three-way comparisons -/

theorem cmpOfLess_ok {α : Type} [DecidableEq α] (lt : α → α → Bool)
    (hasymm : ∀ a b, lt a b = true → lt b a = false)
    (htrans : ∀ a b c, lt a b = true → lt b c = true → lt a c = true)
    (htotal : ∀ a b, a ≠ b → lt a b = true ∨ lt b a = true) :
    CmpOK (fun _ => True) (cmpOfLess lt) := by
  constructor
  · intro a b _ _
    unfold cmpOfLess
    by_cases hab : a = b
    · subst hab
      simp
    · have hba : ¬ b = a := fun e => hab e.symm
      rcases htotal a b hab with h | h
      · simp [hab, hba, h, hasymm a b h]
      · simp [hab, hba, h, hasymm b a h]
  · intro a b c _ _ _ hab hbc
    unfold cmpOfLess at *
    by_cases h1 : a = b
    · subst h1
      exact hbc
    · by_cases h2 : b = c
      · subst h2
        exact hab
      · have hlt1 : lt a b = true := by
          by_contra hn
          simp [h1, hn] at hab
        have hlt2 : lt b c = true := by
          by_contra hn
          simp [h2, hn] at hbc
        have hlt3 := htrans a b c hlt1 hlt2
        by_cases h3 : a = c
        · simp [h3]
        · simp [h3, hlt3]

theorem cmpOfLess_eq_zero {α : Type} [DecidableEq α] (lt : α → α → Bool) (a b : α) :
    cmpOfLess lt a b = 0 ↔ a = b := by
  unfold cmpOfLess
  by_cases h : a = b
  · simp [h]
  · by_cases h' : lt a b = true <;> simp [h, h']

theorem cmpThen_ok {α : Type} (S : α → Prop) (f g : α → α → Int) (hf : CmpOK S f)
    (hg : CmpOK S g) : CmpOK S (cmpThen f g) := by
  obtain ⟨fswap, ftrans⟩ := hf
  obtain ⟨gswap, gtrans⟩ := hg
  constructor
  · intro a b ha hb
    unfold cmpThen
    have h := fswap a b ha hb
    by_cases h0 : f a b = 0
    · have h0' : f b a = 0 := by rw [h, h0]; rfl
      simp [h0, h0', gswap a b ha hb]
    · have h0' : f b a ≠ 0 := by
        rw [h]
        omega
      simp [h0, h0', h]
  · intro a b c ha hb hc hab hbc
    unfold cmpThen at *
    have hab' : f a b ≤ 0 := by
      by_cases h0 : f a b = 0
      · omega
      · simpa [h0] using hab
    have hbc' : f b c ≤ 0 := by
      by_cases h0 : f b c = 0
      · omega
      · simpa [h0] using hbc
    have hac' := ftrans a b c ha hb hc hab' hbc'
    by_cases h0 : f a c = 0
    · have hca : f c a ≤ 0 := by
        rw [fswap a c ha hc, h0]
        rfl
      have hcb := ftrans c a b hc ha hb hca hab'
      have hba := ftrans b c a hb hc ha hbc' hca
      have e1 : f a b = 0 := by
        have := fswap a b ha hb
        omega
      have e2 : f b c = 0 := by
        have := fswap b c hb hc
        omega
      simp only [e1, e2, h0, ne_eq, not_true_eq_false, if_false] at hab hbc ⊢
      exact gtrans a b c ha hb hc hab hbc
    · simpa [h0] using hac'

theorem cmpOK_comap {α β : Type} (S : α → Prop) (T : β → Prop) (f : α → α → Int) (k : β → α)
    (hk : ∀ b, T b → S (k b)) (hf : CmpOK S f) : CmpOK T (fun a b => f (k a) (k b)) :=
  ⟨fun a b ha hb => hf.1 (k a) (k b) (hk a ha) (hk b hb),
    fun a b c ha hb hc => hf.2 (k a) (k b) (k c) (hk a ha) (hk b hb) (hk c hc)⟩

theorem optionCmp_ok {α : Type} (S : α → Prop) (f : α → α → Int) (hf : CmpOK S f) :
    CmpOK (fun o : Option α => ∀ a, o = some a → S a) (optionCmp f) := by
  constructor
  · intro x y hx hy
    cases x <;> cases y <;> simp [optionCmp]
    exact hf.1 _ _ (hx _ rfl) (hy _ rfl)
  · intro x y z hx hy hz hxy hyz
    cases x <;> cases y <;> cases z <;> simp [optionCmp] at hxy hyz ⊢
    exact hf.2 _ _ _ (hx _ rfl) (hy _ rfl) (hz _ rfl) hxy hyz

/-! ## The orders inside `semver.Compare` -/

theorem shortLexLess_asymm (a b : List Char) (h : shortLexLess a b = true) :
    shortLexLess b a = false := by
  unfold shortLexLess at *
  simp only [Bool.or_eq_true, Bool.and_eq_true, decide_eq_true_eq, Bool.or_eq_false_iff,
    Bool.and_eq_false_imp, decide_eq_false_iff_not] at h ⊢
  rcases h with h | ⟨h1, h2⟩
  · exact ⟨by omega, fun e => by omega⟩
  · exact ⟨by omega, fun _ => charsLess_asymm a b h2⟩

theorem shortLexLess_trans (a b c : List Char) (hab : shortLexLess a b = true)
    (hbc : shortLexLess b c = true) : shortLexLess a c = true := by
  unfold shortLexLess at *
  simp only [Bool.or_eq_true, Bool.and_eq_true, decide_eq_true_eq] at hab hbc ⊢
  rcases hab with h | ⟨h1, h2⟩
  · rcases hbc with h' | ⟨h1', _⟩
    · exact Or.inl (by omega)
    · exact Or.inl (by omega)
  · rcases hbc with h' | ⟨h1', h2'⟩
    · exact Or.inl (by omega)
    · exact Or.inr ⟨by omega, charsLess_trans a b c h2 h2'⟩

theorem shortLexLess_total (a b : List Char) (h : a ≠ b) :
    shortLexLess a b = true ∨ shortLexLess b a = true := by
  unfold shortLexLess
  simp only [Bool.or_eq_true, Bool.and_eq_true, decide_eq_true_eq]
  rcases Nat.lt_trichotomy a.length b.length with hl | hl | hl
  · exact Or.inl (Or.inl hl)
  · rcases charsLess_total a b h with h' | h'
    · exact Or.inl (Or.inr ⟨hl, h'⟩)
    · exact Or.inr (Or.inr ⟨hl.symm, h'⟩)
  · exact Or.inr (Or.inl hl)

theorem compareInt_eq (x y : List Char) :
    Semver.compareInt x y = cmpOfLess shortLexLess x y := by
  unfold Semver.compareInt cmpOfLess shortLexLess
  by_cases h : x = y
  · simp [h]
  · simp only [h, if_false, gt_iff_lt]
    rcases Nat.lt_trichotomy x.length y.length with hl | hl | hl
    · simp [hl]
    · have h1 : ¬ x.length < y.length := by omega
      have h2 : ¬ y.length < x.length := by omega
      simp [h1, h2, hl]
    · have h1 : ¬ x.length < y.length := by omega
      have h3 : ¬ x.length = y.length := by omega
      simp [h1, hl, h3]

theorem compareInt_ok : CmpOK (fun _ => True) Semver.compareInt := by
  have h : Semver.compareInt = cmpOfLess shortLexLess := by
    funext x y
    exact compareInt_eq x y
  rw [h]
  exact cmpOfLess_ok _ shortLexLess_asymm shortLexLess_trans shortLexLess_total

theorem compareInt_eq_zero (x y : List Char) : Semver.compareInt x y = 0 ↔ x = y := by
  rw [compareInt_eq, cmpOfLess_eq_zero]

theorem identLess_asymm (a b : List Char) (h : identLess a b = true) :
    identLess b a = false := by
  unfold identLess at *
  cases ha : Semver.isNum a <;> cases hb : Semver.isNum b <;> simp only [ha, hb] at h ⊢
  · simpa using charsLess_asymm a b (by simpa using h)
  · simp at h
  · simp
  · exact shortLexLess_asymm a b h

theorem identLess_trans (a b c : List Char) (hab : identLess a b = true)
    (hbc : identLess b c = true) : identLess a c = true := by
  unfold identLess at *
  cases ha : Semver.isNum a <;> cases hb : Semver.isNum b <;> cases hc : Semver.isNum c <;>
    simp only [ha, hb, hc] at hab hbc ⊢
  · simpa using charsLess_trans a b c (by simpa using hab) (by simpa using hbc)
  · simp at hbc
  · simp at hab
  · simp at hab
  · simp
  · simp at hbc
  · simp
  · exact shortLexLess_trans a b c hab hbc

theorem identLess_total (a b : List Char) (h : a ≠ b) :
    identLess a b = true ∨ identLess b a = true := by
  unfold identLess
  cases ha : Semver.isNum a <;> cases hb : Semver.isNum b
  · simpa using charsLess_total a b h
  · simp
  · simp
  · exact shortLexLess_total a b h

theorem compareIdent_eq (dx dy : List Char) :
    Semver.compareIdent dx dy = if identLess dx dy = true then -1 else 1 := by
  unfold Semver.compareIdent identLess
  cases hx : Semver.isNum dx <;> cases hy : Semver.isNum dy <;> simp
  rcases Nat.lt_trichotomy dx.length dy.length with hl | hl | hl
  · simp [hl]
  · have h1 : ¬ dx.length < dy.length := by omega
    have h2 : ¬ dy.length < dx.length := by omega
    simp [h1, h2, hl]
  · have h1 : ¬ dx.length < dy.length := by omega
    have h3 : ¬ dx.length = dy.length := by omega
    simp [h1, hl, h3]

theorem compareIdent_of_ne (dx dy : List Char) (h : dx ≠ dy) :
    Semver.compareIdent dx dy = cmpOfLess identLess dx dy := by
  rw [compareIdent_eq]
  simp [cmpOfLess, h]

theorem identCmp_ok : CmpOK (fun _ => True) (cmpOfLess identLess) :=
  cmpOfLess_ok _ identLess_asymm identLess_trans identLess_total

theorem identsCmp_swap (a b : List (List Char)) : identsCmp b a = - identsCmp a b := by
  induction a generalizing b with
  | nil => cases b <;> simp [identsCmp]
  | cons x xs ih =>
    cases b with
    | nil => simp [identsCmp]
    | cons y ys =>
      simp only [identsCmp]
      by_cases h : x = y
      · subst h
        simp [ih ys]
      · have h' : ¬ y = x := fun e => h e.symm
        simp only [ne_eq, h, h', not_false_eq_true, if_true]
        exact identCmp_ok.1 x y trivial trivial

theorem identsCmp_eq_zero (a b : List (List Char)) : identsCmp a b = 0 ↔ a = b := by
  induction a generalizing b with
  | nil => cases b <;> simp [identsCmp]
  | cons x xs ih =>
    cases b with
    | nil => simp [identsCmp]
    | cons y ys =>
      simp only [identsCmp]
      by_cases h : x = y
      · subst h
        simp [ih ys]
      · simp [h, cmpOfLess_eq_zero]

theorem identsCmp_trans (a b c : List (List Char)) (hab : identsCmp a b ≤ 0)
    (hbc : identsCmp b c ≤ 0) : identsCmp a c ≤ 0 := by
  induction a generalizing b c with
  | nil => cases c <;> simp [identsCmp]
  | cons x xs ih =>
    cases b with
    | nil => simp [identsCmp] at hab
    | cons y ys =>
      cases c with
      | nil => simp [identsCmp] at hbc
      | cons z zs =>
        simp only [identsCmp] at hab hbc ⊢
        by_cases hxy : x = y
        · subst hxy
          by_cases hxz : x = z
          · subst hxz
            simp only [ne_eq, not_true_eq_false, if_false] at hab hbc ⊢
            exact ih ys zs hab hbc
          · simp only [ne_eq, not_true_eq_false, if_false, hxz, not_false_eq_true,
              if_true] at hab hbc ⊢
            exact hbc
        · by_cases hyz : y = z
          · subst hyz
            simp only [ne_eq, hxy, not_false_eq_true, if_true] at hab ⊢
            exact hab
          · simp only [ne_eq, hxy, hyz, not_false_eq_true, if_true] at hab hbc
            have hxz := identCmp_ok.2 x y z trivial trivial trivial hab hbc
            by_cases hxz' : x = z
            · subst hxz'
              have hsw := identCmp_ok.1 x y trivial trivial
              have h0 : cmpOfLess identLess x y = 0 := by omega
              exact absurd ((cmpOfLess_eq_zero _ _ _).1 h0) hxy
            · simp only [ne_eq, hxz', not_false_eq_true, if_true]
              exact hxz

theorem identsCmp_ok : CmpOK (fun _ => True) identsCmp :=
  ⟨fun a b _ _ => identsCmp_swap a b, fun a b c _ _ _ => identsCmp_trans a b c⟩

/-! ## `comparePrerelease` -/

theorem splitDots_eq (t : List Char) :
    splitDots t = (Semver.nextIdent t).1 :: prereleaseKey (Semver.nextIdent t).2 := by
  induction t with
  | nil => rfl
  | cons c cs ih =>
    by_cases hc : c = '.'
    · subst hc
      simp [splitDots, Semver.nextIdent, prereleaseKey]
    · have h1 : (Semver.nextIdent (c :: cs)).1 = c :: (Semver.nextIdent cs).1 := by
        simp [Semver.nextIdent, List.takeWhile_cons, hc]
      have h2 : (Semver.nextIdent (c :: cs)).2 = (Semver.nextIdent cs).2 := by
        simp [Semver.nextIdent, List.dropWhile_cons, hc]
      rw [h1, h2]
      simp only [splitDots, hc, if_false]
      rw [ih]

theorem joinDots_splitDots (t : List Char) : joinDots (splitDots t) = t := by
  induction t with
  | nil => rfl
  | cons c cs ih =>
    by_cases hc : c = '.'
    · subst hc
      simp only [splitDots, if_true]
      rw [splitDots_eq cs] at ih ⊢
      simp only [joinDots, List.nil_append, ih]
    · simp only [splitDots, hc, if_false]
      rw [splitDots_eq cs] at ih ⊢
      simp only
      cases hk : prereleaseKey (Semver.nextIdent cs).2 with
      | nil =>
        rw [hk] at ih
        simp only [joinDots] at ih ⊢
        rw [ih]
      | cons b r =>
        rw [hk] at ih
        simp only [joinDots, List.cons_append] at ih ⊢
        rw [ih]

theorem splitDots_injective (t u : List Char) (h : splitDots t = splitDots u) : t = u := by
  rw [← joinDots_splitDots t, ← joinDots_splitDots u, h]

theorem prereleaseKey_cons_ne_nil (c : Char) (t : List Char) : prereleaseKey (c :: t) ≠ [] := by
  simp [prereleaseKey, splitDots_eq t]

theorem prereleaseKey_injective (x y : List Char) (hx : PrereleaseShape x)
    (hy : PrereleaseShape y) (h : prereleaseKey x = prereleaseKey y) : x = y := by
  rcases hx with rfl | ⟨t, rfl⟩
  · rcases hy with rfl | ⟨u, rfl⟩
    · rfl
    · exact absurd h.symm (prereleaseKey_cons_ne_nil _ _)
  · rcases hy with rfl | ⟨u, rfl⟩
    · exact absurd h (prereleaseKey_cons_ne_nil _ _)
    · rw [splitDots_injective t u h]

theorem nextIdent_rest_length (t : List Char) : (Semver.nextIdent t).2.length ≤ t.length := by
  induction t with
  | nil => simp [Semver.nextIdent]
  | cons c cs ih =>
    by_cases hc : c = '.'
    · simp [Semver.nextIdent, List.dropWhile_cons, hc]
    · have h2 : (Semver.nextIdent (c :: cs)).2 = (Semver.nextIdent cs).2 := by
        simp [Semver.nextIdent, List.dropWhile_cons, hc]
      rw [h2]
      simp only [List.length_cons]
      omega

theorem identsCmp_nil_left (k : List (List Char)) :
    (if identsCmp [] k = 0 then (-1 : Int) else identsCmp [] k) = -1 := by
  cases k <;> simp [identsCmp]

/-- With fuel for every character of `x`, the loop of `comparePrerelease` compares the
identifiers of `x` and `y` from the left, and answers `-1` when it finds no difference. -/
theorem comparePrereleaseLoop_eq (fuel : Nat) (x y : List Char) (hf : x.length ≤ fuel) :
    Semver.comparePrereleaseLoop fuel x y =
      if identsCmp (prereleaseKey x) (prereleaseKey y) = 0 then -1
      else identsCmp (prereleaseKey x) (prereleaseKey y) := by
  induction fuel generalizing x y with
  | zero =>
    have hx : x = [] := List.length_eq_zero.1 (by omega)
    subst hx
    simp only [Semver.comparePrereleaseLoop, List.isEmpty_nil, if_true, prereleaseKey]
    exact (identsCmp_nil_left _).symm
  | succ n ih =>
    cases x with
    | nil =>
      simp only [Semver.comparePrereleaseLoop, List.isEmpty_nil, Bool.not_true, Bool.false_and,
        Bool.false_eq_true, if_false, if_true, prereleaseKey]
      exact (identsCmp_nil_left _).symm
    | cons c t =>
      cases y with
      | nil =>
        simp [Semver.comparePrereleaseLoop, prereleaseKey, splitDots_eq t, identsCmp]
      | cons d u =>
        have hlen : (Semver.nextIdent t).2.length ≤ n := by
          have := nextIdent_rest_length t
          simp only [List.length_cons] at hf
          omega
        simp only [Semver.comparePrereleaseLoop, List.isEmpty_cons, Bool.not_false, Bool.and_self,
          if_true, List.tail_cons, prereleaseKey]
        rw [splitDots_eq t, splitDots_eq u]
        simp only [identsCmp]
        by_cases hd : (Semver.nextIdent t).1 = (Semver.nextIdent u).1
        · simp only [hd, ne_eq, not_true_eq_false, if_false]
          exact ih _ _ hlen
        · simp only [ne_eq, hd, not_false_eq_true, if_true]
          rw [compareIdent_of_ne _ _ hd]
          have hne : cmpOfLess identLess (Semver.nextIdent t).1 (Semver.nextIdent u).1 ≠ 0 :=
            fun h0 => hd ((cmpOfLess_eq_zero _ _ _).1 h0)
          simp [hne]

/-- The loop of `comparePrerelease` does not need more fuel than `x` has characters. -/
theorem comparePrereleaseLoop_fuel (fuel : Nat) (x y : List Char) (hf : x.length ≤ fuel) :
    Semver.comparePrereleaseLoop fuel x y = Semver.comparePrereleaseLoop x.length x y := by
  rw [comparePrereleaseLoop_eq fuel x y hf, comparePrereleaseLoop_eq x.length x y (le_refl _)]

theorem comparePrerelease_eq (x y : List Char) (hx : PrereleaseShape x)
    (hy : PrereleaseShape y) : Semver.comparePrerelease x y = prereleaseCmp x y := by
  unfold Semver.comparePrerelease prereleaseCmp
  by_cases hxy : x = y
  · simp [hxy]
  · simp only [hxy, if_false, List.isEmpty_iff]
    by_cases hx0 : x = []
    · simp [hx0]
    · by_cases hy0 : y = []
      · simp [hx0, hy0]
      · simp only [hx0, hy0, if_false]
        rw [comparePrereleaseLoop_eq _ x y (le_refl _)]
        have hne : identsCmp (prereleaseKey x) (prereleaseKey y) ≠ 0 := by
          intro h0
          exact hxy (prereleaseKey_injective x y hx hy ((identsCmp_eq_zero _ _).1 h0))
        simp [hne]

theorem prereleaseCmp_ok : CmpOK PrereleaseShape prereleaseCmp := by
  constructor
  · intro a b _ _
    unfold prereleaseCmp
    by_cases hab : a = b
    · subst hab
      simp
    · have hba : ¬ b = a := fun e => hab e.symm
      by_cases ha : a = []
      · have hb : ¬ b = [] := fun e => hab (ha.trans e.symm)
        simp [hab, hba, ha, hb]
      · by_cases hb : b = []
        · simp [hab, hba, ha, hb]
        · simp only [hab, hba, ha, hb, if_false]
          exact identsCmp_swap _ _
  · intro a b c ha hb hc hab hbc
    unfold prereleaseCmp at *
    by_cases h1 : a = b
    · subst h1
      exact hbc
    · by_cases h2 : b = c
      · subst h2
        exact hab
      · by_cases h3 : a = c
        · simp [h3]
        · have ha0 : ¬ a = [] := by
            intro e
            subst e
            have hb' : ¬ b = [] := fun e' => h1 e'.symm
            simp [h1, hb'] at hab
          have hb0 : ¬ b = [] := by
            intro e
            subst e
            have hc' : ¬ c = [] := fun e' => h2 e'.symm
            simp [h2, hc'] at hbc
          by_cases hc0 : c = []
          · simp [h3, ha0, hc0]
          · simp only [h1, h2, h3, ha0, hb0, hc0, if_false] at hab hbc ⊢
            exact identsCmp_trans _ _ _ hab hbc

theorem comparePrerelease_ok : CmpOK PrereleaseShape Semver.comparePrerelease := by
  constructor
  · intro a b ha hb
    rw [comparePrerelease_eq a b ha hb, comparePrerelease_eq b a hb ha]
    exact prereleaseCmp_ok.1 a b ha hb
  · intro a b c ha hb hc
    rw [comparePrerelease_eq a b ha hb, comparePrerelease_eq b c hb hc,
      comparePrerelease_eq a c ha hc]
    exact prereleaseCmp_ok.2 a b c ha hb hc

/-! ## `parse` and `Compare` -/

theorem prereleaseLoop_consumed (rest consumed ident t r : List Char)
    (h : Semver.prereleaseLoop consumed ident rest = some (t, r)) : ∃ u, t = consumed ++ u := by
  induction rest generalizing consumed ident with
  | nil =>
    simp only [Semver.prereleaseLoop] at h
    split at h
    · simp at h
    · simp only [Option.some.injEq, Prod.mk.injEq] at h
      exact ⟨[], by simp [h.1]⟩
  | cons c cs ih =>
    simp only [Semver.prereleaseLoop] at h
    split at h
    · split at h
      · simp at h
      · simp only [Option.some.injEq, Prod.mk.injEq] at h
        exact ⟨[], by simp [h.1]⟩
    · split at h
      · simp at h
      · split at h
        · split at h
          · simp at h
          · obtain ⟨u, hu⟩ := ih _ _ h
            exact ⟨c :: u, by simp [hu]⟩
        · obtain ⟨u, hu⟩ := ih _ _ h
          exact ⟨c :: u, by simp [hu]⟩

theorem parsePrerelease_shape (v t r : List Char) (h : Semver.parsePrerelease v = some (t, r)) :
    PrereleaseShape t := by
  cases v with
  | nil => simp [Semver.parsePrerelease] at h
  | cons c cs =>
    simp only [Semver.parsePrerelease] at h
    split at h
    · simp at h
    · rename_i hc
      have hc' : c = '-' := by simpa using hc
      obtain ⟨u, hu⟩ := prereleaseLoop_consumed _ _ _ _ _ h
      exact Or.inr ⟨u, by simp [hu, hc']⟩

theorem parseTail_shape (major minor patch v : List Char) (p : Semver.Parsed)
    (h : Semver.parseTail major minor patch v = some p) : PrereleaseShape p.prerelease := by
  unfold Semver.parseTail at h
  by_cases hd : (v.head? == some '-') = true
  · simp only [hd, if_true] at h
    cases hp : Semver.parsePrerelease v with
    | none => simp [hp] at h
    | some tr =>
      obtain ⟨t, r⟩ := tr
      have hs := parsePrerelease_shape v t r hp
      simp only [hp] at h
      split at h
      · simp at h
      · split at h
        · simp at h
        · rename_i heq _
          simp only [Option.some.injEq] at h
          subst h
          exact hs
  · simp only [hd, Bool.false_eq_true, if_false] at h
    split at h
    · simp at h
    · split at h
      · simp at h
      · simp only [Option.some.injEq] at h
        subst h
        exact Or.inl rfl

theorem parse_shape (v : List Char) (p : Semver.Parsed) (h : Semver.parse v = some p) :
    PrereleaseShape p.prerelease := by
  unfold Semver.parse at h
  split at h
  · simp at h
  · split at h
    · simp at h
    · split at h
      · simp at h
      · split at h
        · simp only [Option.some.injEq] at h
          subst h
          exact Or.inl rfl
        · split at h
          · simp at h
          · split at h
            · simp at h
            · split at h
              · simp only [Option.some.injEq] at h
                subst h
                exact Or.inl rfl
              · split at h
                · simp at h
                · split at h
                  · simp at h
                  · exact parseTail_shape _ _ _ _ _ h

theorem parsedCmp_ok : CmpOK (fun p : Semver.Parsed => PrereleaseShape p.prerelease) parsedCmp := by
  unfold parsedCmp
  have hint : ∀ k : Semver.Parsed → List Char,
      CmpOK (fun p : Semver.Parsed => PrereleaseShape p.prerelease)
        (fun p q => Semver.compareInt (k p) (k q)) := fun k =>
    cmpOK_comap (fun _ => True) _ Semver.compareInt k (fun _ _ => trivial) compareInt_ok
  have hpre : CmpOK (fun p : Semver.Parsed => PrereleaseShape p.prerelease)
      (fun p q => Semver.comparePrerelease p.prerelease q.prerelease) :=
    cmpOK_comap PrereleaseShape _ Semver.comparePrerelease
      (fun p : Semver.Parsed => p.prerelease) (fun _ h => h) comparePrerelease_ok
  exact cmpThen_ok _ _ _ (hint _) (cmpThen_ok _ _ _ (hint _) (cmpThen_ok _ _ _ (hint _) hpre))

theorem Compare_eq (v w : String) :
    Semver.Compare v w = optionCmp parsedCmp (Semver.parse v.data) (Semver.parse w.data) := by
  unfold Semver.Compare
  cases Semver.parse v.data <;> cases Semver.parse w.data <;> rfl

theorem Compare_ok : CmpOK (fun _ : String => True) Semver.Compare := by
  have h : Semver.Compare =
      fun v w => optionCmp parsedCmp (Semver.parse v.data) (Semver.parse w.data) := by
    funext v w
    exact Compare_eq v w
  rw [h]
  exact cmpOK_comap _ _ (optionCmp parsedCmp) (fun v : String => Semver.parse v.data)
    (fun v _ p hp => parse_shape v.data p hp) (optionCmp_ok _ _ parsedCmp_ok)

theorem stringsCompare_eq (a b : String) : stringsCompare a b = cmpOfLess stringLess a b := rfl

theorem stringsCompare_ok : CmpOK (fun _ : String => True) stringsCompare := by
  have h : stringsCompare = cmpOfLess stringLess := by
    funext a b
    exact stringsCompare_eq a b
  rw [h]
  exact cmpOfLess_ok _ stringLess_asymm stringLess_trans stringLess_total

theorem compareVersion_ok : CmpOK (fun _ : String => True) Semver.compareVersion := by
  have h : Semver.compareVersion = cmpThen Semver.Compare stringsCompare := by
    funext a b
    rfl
  rw [h]
  exact cmpThen_ok _ _ _ Compare_ok stringsCompare_ok

theorem compareVersion_swap (a b : String) :
    Semver.compareVersion b a = - Semver.compareVersion a b :=
  compareVersion_ok.1 a b trivial trivial

theorem compareVersion_trans (a b c : String) (hab : Semver.compareVersion a b ≤ 0)
    (hbc : Semver.compareVersion b c ≤ 0) : Semver.compareVersion a c ≤ 0 :=
  compareVersion_ok.2 a b c trivial trivial trivial hab hbc

theorem compareVersion_eq_zero (a b : String) : Semver.compareVersion a b = 0 ↔ a = b := by
  constructor
  · intro h
    unfold Semver.compareVersion at h
    by_cases hc : Semver.Compare a b = 0
    · simp only [hc, ne_eq, not_true_eq_false, if_false] at h
      rw [stringsCompare_eq] at h
      exact (cmpOfLess_eq_zero _ _ _).1 h
    · simp only [ne_eq, hc, not_false_eq_true, if_true] at h
  · rintro rfl
    have := compareVersion_swap a a
    omega

theorem VersionLE_total (a b : String) : Semver.VersionLE a b ∨ Semver.VersionLE b a := by
  unfold Semver.VersionLE
  have := compareVersion_swap a b
  omega

theorem VersionLE_antisymm (a b : String) (hab : Semver.VersionLE a b)
    (hba : Semver.VersionLE b a) : a = b := by
  unfold Semver.VersionLE at *
  have := compareVersion_swap a b
  exact (compareVersion_eq_zero a b).1 (by omega)

/-- The result of `semver.Sort` is in ascending order. -/
theorem Semver.sort_sorted (l : List String) : (Semver.sort l).Sorted Semver.VersionLE :=
  haveI : IsTotal String Semver.VersionLE := ⟨VersionLE_total⟩
  haveI : IsTrans String Semver.VersionLE := ⟨compareVersion_trans⟩
  List.sorted_insertionSort Semver.VersionLE l

/-- The result of `semver.Sort` is a rearrangement of its argument. -/
theorem Semver.sort_perm (l : List String) : (Semver.sort l).Perm l :=
  List.perm_insertionSort Semver.VersionLE l

/-- There is one ascending rearrangement only, whatever the algorithm that finds it. -/
theorem Semver.sort_unique (l l' : List String) (hp : l'.Perm l)
    (hs : l'.Sorted Semver.VersionLE) : l' = Semver.sort l :=
  haveI : IsAntisymm String Semver.VersionLE := ⟨VersionLE_antisymm⟩
  List.eq_of_perm_of_sorted (hp.trans (Semver.sort_perm l).symm) hs (Semver.sort_sorted l)

theorem Semver.sort_congr {l l' : List String} (hp : l.Perm l') :
    Semver.sort l = Semver.sort l' :=
  Semver.sort_unique l' (Semver.sort l) ((Semver.sort_perm l).trans hp) (Semver.sort_sorted l)

/-! ## Decimal numerals -/

theorem isDigit_iff (c : Char) : Semver.isDigit c = true ↔ IsAsciiDigit c := by
  simp [Semver.isDigit, IsAsciiDigit]

theorem takeWhile_append_stop {p : Char → Bool} (cs r : List Char) (hcs : ∀ c ∈ cs, p c = true)
    (hr : ∀ c, r.head? = some c → p c = false) : (cs ++ r).takeWhile p = cs := by
  induction cs with
  | nil =>
    cases r with
    | nil => rfl
    | cons d ds => simp [List.takeWhile_cons, hr d rfl]
  | cons c cs ih =>
    have hc := hcs c (List.mem_cons_self _ _)
    simp only [List.cons_append, List.takeWhile_cons, hc, if_true, List.cons.injEq, true_and]
    exact ih (fun x hx => hcs x (List.mem_cons_of_mem _ hx))

theorem dropWhile_append_stop {p : Char → Bool} (cs r : List Char) (hcs : ∀ c ∈ cs, p c = true)
    (hr : ∀ c, r.head? = some c → p c = false) : (cs ++ r).dropWhile p = r := by
  induction cs with
  | nil =>
    cases r with
    | nil => rfl
    | cons d ds => simp [List.dropWhile_cons, hr d rfl]
  | cons c cs ih =>
    have hc := hcs c (List.mem_cons_self _ _)
    simp only [List.cons_append, List.dropWhile_cons, hc, if_true]
    exact ih (fun x hx => hcs x (List.mem_cons_of_mem _ hx))

/-- `parseInt` reads a canonical decimal numeral up to the first character that is not a
digit. -/
theorem parseInt_canonical (m : String) (r : List Char) (hm : IsCanonicalDecimal m)
    (hr : ∀ c, r.head? = some c → Semver.isDigit c = false) :
    Semver.parseInt (m.data ++ r) = some (m.data, r) := by
  obtain ⟨hne, hdig, hzero⟩ := hm
  cases hd : m.data with
  | nil => exact absurd hd hne
  | cons c cs =>
    rw [hd] at hdig hzero
    have hc : Semver.isDigit c = true := (isDigit_iff c).2 (hdig c (List.mem_cons_self _ _))
    have hcs : ∀ x ∈ cs, Semver.isDigit x = true := fun x hx =>
      (isDigit_iff x).2 (hdig x (List.mem_cons_of_mem _ hx))
    simp only [List.cons_append, Semver.parseInt, hc, Bool.not_true, Bool.false_eq_true, if_false,
      takeWhile_append_stop cs r hcs hr, dropWhile_append_stop cs r hcs hr]
    by_cases h0 : c = '0'
    · subst h0
      have := hzero rfl
      simp only [List.cons.injEq, true_and] at this
      subst this
      simp
    · simp [h0]

theorem parse_major_minor (ma na : String) (hma : IsCanonicalDecimal ma)
    (hna : IsCanonicalDecimal na) :
    Semver.parse ("v" ++ (ma ++ "." ++ na)).data =
      some ⟨ma.data, na.data, ['0'], ".0".data, [], []⟩ := by
  have hdata : ("v" ++ (ma ++ "." ++ na)).data = 'v' :: (ma.data ++ ('.' :: na.data)) := by
    simp
  have h1 : Semver.parseInt (ma.data ++ ('.' :: na.data)) = some (ma.data, '.' :: na.data) :=
    parseInt_canonical ma _ hma (by
      intro c hc
      simp only [List.head?_cons, Option.some.injEq] at hc
      subst hc
      decide)
  have h2 : Semver.parseInt na.data = some (na.data, []) := by
    have := parseInt_canonical na [] hna (by simp)
    simpa using this
  rw [hdata]
  simp [Semver.parse, h1, h2]

theorem decimalValue_lt (s : List Char) (h : ∀ c ∈ s, IsAsciiDigit c) :
    decimalValue s < 10 ^ s.length := by
  induction s with
  | nil => simp [decimalValue]
  | cons c cs ih =>
    have hc := h c (List.mem_cons_self _ _)
    have ih' := ih (fun x hx => h x (List.mem_cons_of_mem _ hx))
    have hd : c.toNat - 48 ≤ 9 := by
      have := hc.2
      omega
    have hmul : (c.toNat - 48) * 10 ^ cs.length ≤ 9 * 10 ^ cs.length :=
      Nat.mul_le_mul_right _ hd
    simp only [decimalValue, List.length_cons, pow_succ]
    omega

theorem decimalValue_ge (c : Char) (cs : List Char) (hc : IsAsciiDigit c) (h0 : c ≠ '0') :
    10 ^ cs.length ≤ decimalValue (c :: cs) := by
  have hd : 1 ≤ c.toNat - 48 := by
    have h1 := hc.1
    have hne : c.toNat ≠ 48 := fun e => h0 (char_eq_of_toNat_eq (by rw [e]; rfl))
    omega
  have hmul : 1 * 10 ^ cs.length ≤ (c.toNat - 48) * 10 ^ cs.length :=
    Nat.mul_le_mul_right _ hd
  simp only [decimalValue]
  omega

theorem decimalValue_lt_of_charsLess (x y : List Char) (hx : ∀ c ∈ x, IsAsciiDigit c)
    (hy : ∀ c ∈ y, IsAsciiDigit c) (hlen : x.length = y.length) (h : charsLess x y = true) :
    decimalValue x < decimalValue y := by
  induction x generalizing y with
  | nil =>
    cases y with
    | nil => simp [charsLess] at h
    | cons d ds => simp at hlen
  | cons c cs ih =>
    cases y with
    | nil => simp at hlen
    | cons d ds =>
      have hlen' : cs.length = ds.length := by simpa using hlen
      have hc := hx c (List.mem_cons_self _ _)
      have hd := hy d (List.mem_cons_self _ _)
      have hcs : ∀ z ∈ cs, IsAsciiDigit z := fun z hz => hx z (List.mem_cons_of_mem _ hz)
      have hds : ∀ z ∈ ds, IsAsciiDigit z := fun z hz => hy z (List.mem_cons_of_mem _ hz)
      simp only [charsLess] at h
      simp only [decimalValue, hlen']
      by_cases h1 : c.toNat < d.toNat
      · have hb := decimalValue_lt cs hcs
        rw [hlen'] at hb
        have hle : c.toNat - 48 + 1 ≤ d.toNat - 48 := by
          have := hc.1
          omega
        have hmul : (c.toNat - 48 + 1) * 10 ^ ds.length ≤ (d.toNat - 48) * 10 ^ ds.length :=
          Nat.mul_le_mul_right _ hle
        rw [Nat.add_mul, Nat.one_mul] at hmul
        omega
      · by_cases h2 : d.toNat < c.toNat
        · simp [h1, h2] at h
        · simp only [h1, h2, if_false] at h
          have hcd : c.toNat = d.toNat := by omega
          have := ih ds hcs hds hlen' h
          rw [hcd]
          omega

theorem canonical_head_ne_zero (s : String) (hs : IsCanonicalDecimal s) (hlen : 2 ≤ s.data.length) :
    ∃ c cs, s.data = c :: cs ∧ IsAsciiDigit c ∧ c ≠ '0' := by
  obtain ⟨hne, hdig, hzero⟩ := hs
  cases hd : s.data with
  | nil => exact absurd hd hne
  | cons c cs =>
    refine ⟨c, cs, rfl, hdig c (by rw [hd]; exact List.mem_cons_self _ _), ?_⟩
    rintro rfl
    rw [hd] at hzero hlen
    have := hzero rfl
    simp only [List.cons.injEq, true_and] at this
    subst this
    simp at hlen

/-- On canonical decimal numerals the order of `compareInt` is the order of the numbers. -/
theorem numericValue_lt_of_shortLexLess (x y : String) (hx : IsCanonicalDecimal x)
    (hy : IsCanonicalDecimal y) (h : shortLexLess x.data y.data = true) :
    numericValue x < numericValue y := by
  unfold shortLexLess at h
  simp only [Bool.or_eq_true, Bool.and_eq_true, decide_eq_true_eq] at h
  unfold numericValue
  rcases h with hl | ⟨hl, hc⟩
  · have hxl : 1 ≤ x.data.length := by
      have := hx.1
      cases hd : x.data with
      | nil => exact absurd hd this
      | cons c cs => simp
    obtain ⟨c, cs, hd, hcd, hc0⟩ := canonical_head_ne_zero y hy (by omega)
    have h1 := decimalValue_lt x.data hx.2.1
    have h2 := decimalValue_ge c cs hcd hc0
    rw [hd] at hl ⊢
    have h3 : 10 ^ x.data.length ≤ 10 ^ cs.length :=
      Nat.pow_le_pow_right (by omega) (by simp only [List.length_cons] at hl; omega)
    omega
  · exact decimalValue_lt_of_charsLess _ _ hx.2.1 hy.2.1 hl hc

theorem compareInt_of_numericValue_lt (x y : String) (hx : IsCanonicalDecimal x)
    (hy : IsCanonicalDecimal y) (h : numericValue x < numericValue y) :
    Semver.compareInt x.data y.data = -1 := by
  have hne : x.data ≠ y.data := by
    intro e
    unfold numericValue at h
    rw [e] at h
    exact absurd h (Nat.lt_irrefl _)
  rw [compareInt_eq]
  rcases shortLexLess_total _ _ hne with hl | hl
  · simp [cmpOfLess, hne, hl]
  · have := numericValue_lt_of_shortLexLess y x hy hx hl
    omega

theorem canonical_eq_of_numericValue_eq (x y : String) (hx : IsCanonicalDecimal x)
    (hy : IsCanonicalDecimal y) (h : numericValue x = numericValue y) : x = y := by
  by_contra hne
  have hne' : x.data ≠ y.data := fun e => hne (String.ext e)
  rcases shortLexLess_total _ _ hne' with hl | hl
  · have := numericValue_lt_of_shortLexLess x y hx hy hl
    omega
  · have := numericValue_lt_of_shortLexLess y x hy hx hl
    omega

/-- The version with the numerically smaller (major, minor) pair compares below the other. -/
theorem compareVersion_major_minor (ma na mb nb : String) (hma : IsCanonicalDecimal ma)
    (hna : IsCanonicalDecimal na) (hmb : IsCanonicalDecimal mb) (hnb : IsCanonicalDecimal nb)
    (hlt : numericValue ma < numericValue mb ∨
      (numericValue ma = numericValue mb ∧ numericValue na < numericValue nb)) :
    Semver.compareVersion ("v" ++ (ma ++ "." ++ na)) ("v" ++ (mb ++ "." ++ nb)) = -1 := by
  have hc : Semver.Compare ("v" ++ (ma ++ "." ++ na)) ("v" ++ (mb ++ "." ++ nb)) = -1 := by
    unfold Semver.Compare
    rw [parse_major_minor ma na hma hna, parse_major_minor mb nb hmb hnb]
    rcases hlt with h | ⟨h1, h2⟩
    · simp [compareInt_of_numericValue_lt ma mb hma hmb h]
    · have e := canonical_eq_of_numericValue_eq ma mb hma hmb h1
      subst e
      simp [(compareInt_eq_zero ma.data ma.data).2 rfl,
        compareInt_of_numericValue_lt na nb hna hnb h2]
  unfold Semver.compareVersion
  simp [hc]

/-! ## Lemmas on the version listing -/

theorem pair_sublist_of_sorted (l : List String) (hs : l.Sorted Semver.VersionLE) (a b : String)
    (ha : a ∈ l) (hb : b ∈ l) (hab : Semver.compareVersion a b < 0) : List.Sublist [a, b] l := by
  induction l with
  | nil => simp at ha
  | cons x xs ih =>
    have hne : a ≠ b := by
      rintro rfl
      have := (compareVersion_eq_zero a a).2 rfl
      omega
    have hnle : ¬ Semver.VersionLE b a := by
      unfold Semver.VersionLE
      have := compareVersion_swap a b
      omega
    rw [List.sorted_cons] at hs
    rcases List.mem_cons.1 ha with rfl | ha'
    · rcases List.mem_cons.1 hb with rfl | hb'
      · exact absurd rfl hne
      · exact List.Sublist.cons₂ _ (List.singleton_sublist.2 hb')
    · rcases List.mem_cons.1 hb with rfl | hb'
      · exact absurd (hs.1 a ha') hnle
      · exact List.Sublist.cons _ (ih hs.2 ha' hb')

theorem versionListing_perm (order : List String → List String) (horder : ∀ l, (order l).Perm l)
    (tags : Catalog) : (versionListing order tags).Perm (Catalog.keys tags) := by
  unfold versionListing
  have h1 : ((Semver.sort ((order (Catalog.keys tags)).map (fun v => "v" ++ v))).map
      (fun v => stringsTrimPrefix v "v")).Perm
      (((order (Catalog.keys tags)).map (fun v => "v" ++ v)).map
        (fun v => stringsTrimPrefix v "v")) := (Semver.sort_perm _).map _
  have h2 : ((order (Catalog.keys tags)).map (fun v => "v" ++ v)).map
      (fun v => stringsTrimPrefix v "v") = order (Catalog.keys tags) := by
    rw [List.map_map]
    conv_rhs => rw [← List.map_id (order (Catalog.keys tags))]
    apply List.map_congr_left
    intro k _
    exact stringsTrimPrefix_append "v" k
  rw [h2] at h1
  exact h1.trans (horder _)

theorem versionListing_congr (order1 order2 : List String → List String)
    (h1 : ∀ l, (order1 l).Perm l) (h2 : ∀ l, (order2 l).Perm l) (tags : Catalog) :
    versionListing order1 tags = versionListing order2 tags := by
  unfold versionListing
  have hp : ((order1 (Catalog.keys tags)).map (fun v => "v" ++ v)).Perm
      ((order2 (Catalog.keys tags)).map (fun v => "v" ++ v)) :=
    ((h1 _).trans (h2 _).symm).map _
  simp only [Semver.sort_congr hp]

theorem versionListing_pair (order : List String → List String)
    (horder : ∀ l, (order l).Perm l) (tags : Catalog) (a b : String)
    (ha : a ∈ Catalog.keys tags) (hb : b ∈ Catalog.keys tags)
    (hab : Semver.compareVersion ("v" ++ a) ("v" ++ b) < 0) :
    List.Sublist [a, b] (versionListing order tags) := by
  unfold versionListing
  have hmem : ∀ k, k ∈ Catalog.keys tags →
      "v" ++ k ∈ Semver.sort ((order (Catalog.keys tags)).map (fun v => "v" ++ v)) := by
    intro k hk
    rw [(Semver.sort_perm _).mem_iff]
    exact List.mem_map.2 ⟨k, (horder _).mem_iff.2 hk, rfl⟩
  have hsub := pair_sublist_of_sorted _ (Semver.sort_sorted _) _ _ (hmem a ha) (hmem b hb) hab
  have := hsub.map (fun v => stringsTrimPrefix v "v")
  simpa [stringsTrimPrefix_append] using this

/-! ## The classifier and the catalog builder -/

theorem FindStringSubmatch_of_tagChars {t key suffix : String}
    (h : TagChars t.data key.data suffix.data) :
    FindStringSubmatch kernelTagRegex t = [t, key, suffix] := by
  unfold FindStringSubmatch kernelTagRegex
  rw [findFrom_tagRegex_match true h]
  rfl

theorem buildCatalog_of_all_discarded (raws : List String) (h : ∀ t ∈ raws, classify t = none) :
    buildCatalog raws = [] := by
  rw [buildCatalog_eq_foldl]
  induction raws with
  | nil => rfl
  | cons t ts ih =>
    rw [List.foldl_cons, h t (List.mem_cons_self _ _)]
    exact ih (fun x hx => h x (List.mem_cons_of_mem _ hx))

theorem order_nil (order : List String → List String) (horder : ∀ l, (order l).Perm l) :
    order [] = [] := List.perm_nil.1 (horder [])

/-- C1, as the specification states it, fails: the tag `a\nb-main` is the label `a\nb`, a
hyphen and the suffix `main`, the label is not empty and has no `-latest` in it, and yet the
classifier discards the tag, because `.` does not match a line feed. -/
theorem classify_claimed_contract_fails :
    ClaimedKept "a\nb-main" "a\nb" ∧ classify "a\nb-main" = none := by
  refine ⟨⟨"main", by decide, by decide, Or.inr rfl, ?_⟩, by decide⟩
  intro h
  have h' := (stringsContains_iff _ _).2 h
  revert h'
  decide

/-- C1, amended: the classifier keeps `tag` under `label`, storing `stored`, if and only if
`stored` is the whole tag and the tag is `label`, a hyphen and a suffix, where the label is
a non-empty sequence of characters other than line feed that does not contain `-latest`,
and the suffix is digits, a dot, digits, or `main`. Every other tag is discarded. -/
theorem classify_contract (tag : String) :
    (∀ label stored : String, classify tag = some (label, stored) ↔ stored = tag ∧ Kept tag label) ∧
      (classify tag = none ↔ ¬ ∃ label, Kept tag label) :=
  ⟨fun label stored => classify_eq_some_iff tag label stored, classify_eq_none_iff tag⟩

/-- C2, as the specification states it, fails: the catalog built from the four raw tags of
the example has no bucket for `6.6`, because `6.6-5` is not matched by the regular
expression (its suffix `5` is not digits, a dot, digits). -/
theorem filtering_example_claimed_fails :
    classify "6.6-5" = none ∧
      Catalog.lookup (buildCatalog ["6.6-5", "6.6-latest-5", "garbage", "bpf-next-main"]) "6.6" ≠
        some ["6.6-5"] := by
  decide

/-- C2, amended: the catalog built from the raw tags `6.6-5`, `6.6-latest-5`, `garbage`,
`bpf-next-main` has the single bucket `bpf-next` holding `bpf-next-main`; the other three
tags are excluded. -/
theorem filtering_example :
    buildCatalog ["6.6-5", "6.6-latest-5", "garbage", "bpf-next-main"] =
        [("bpf-next", ["bpf-next-main"])] ∧
      classify "6.6-5" = none ∧ classify "6.6-latest-5" = none ∧ classify "garbage" = none := by
  decide

/-- C3: every string stored in a bucket of the built catalog matches the tag pattern in
full, with the bucket's key as its label; the key is not empty and does not contain
`-latest`; and the lines printed by tag listing for that key are strings of the bucket. -/
theorem catalog_invariant (ε : Type) (order : List String → List String)
    (horder : ∀ l, (order l).Perm l) (raws : List String) (key : String) (bucket : List String)
    (h : (key, bucket) ∈ buildCatalog raws) :
    key ≠ "" ∧ ¬ HasSubstring key "-latest" ∧
      (∀ t ∈ bucket, ∃ suffix, IsVersionSuffix suffix ∧ t = key ++ "-" ++ suffix ∧
        FindStringSubmatch kernelTagRegex t = [t, key, suffix]) ∧
      (∀ line ∈ (tagListing order (buildCatalog raws) key : Run ε).out, line ∈ bucket ∧
        ∃ suffix, IsVersionSuffix suffix ∧ line = key ++ "-" ++ suffix ∧
          FindStringSubmatch kernelTagRegex line = [line, key, suffix]) := by
  have hlook := Catalog.lookup_of_mem _ (buildCatalog_keys_nodup raws) key bucket h
  have hb := buildCatalog_lookup raws key
  rw [hlook] at hb
  by_cases hk : keptWith key raws = []
  · rw [if_pos hk] at hb
    exact absurd hb (by simp)
  · rw [if_neg hk] at hb
    have hbk : bucket = keptWith key raws := by simpa using hb
    have hkept : ∀ t ∈ bucket, Kept t key := by
      intro t ht
      rw [hbk] at ht
      exact ((classify_eq_some_iff t key t).1 ((mem_keptWith key raws t).1 ht).2).2
    obtain ⟨t0, ht0⟩ := List.exists_mem_of_ne_nil _ (hbk ▸ hk : bucket ≠ [])
    obtain ⟨_, _, hne, _, _, hlat⟩ := hkept t0 ht0
    have hpat : ∀ t ∈ bucket, ∃ suffix, IsVersionSuffix suffix ∧ t = key ++ "-" ++ suffix ∧
        FindStringSubmatch kernelTagRegex t = [t, key, suffix] := by
      intro t ht
      obtain ⟨suffix, h1, h2, h3, h4, _⟩ := hkept t ht
      exact ⟨suffix, h4, h1,
        FindStringSubmatch_of_tagChars ((tagChars_iff t key suffix).2 ⟨h1, h2, h3, h4⟩)⟩
    refine ⟨hne, hlat, hpat, ?_⟩
    intro line hline
    rw [tagListing_found order horder _ key bucket hlook] at hline
    have hmem := (slicesSort_perm bucket).mem_iff.1 hline
    exact ⟨hmem, hpat line hmem⟩

/-- C3 at the raw tags `6.6-20240101.1`, `bpf-next-main`, `junk` and the bucket `bpf-next`. -/
theorem catalog_invariant_witness :
    ("bpf-next", ["bpf-next-main"]) ∈ buildCatalog ["6.6-20240101.1", "bpf-next-main", "junk"] ∧
      ("bpf-next" ≠ "" ∧ ¬ HasSubstring "bpf-next" "-latest" ∧
        (∀ t ∈ ["bpf-next-main"], ∃ suffix, IsVersionSuffix suffix ∧
          t = "bpf-next" ++ "-" ++ suffix ∧
          FindStringSubmatch kernelTagRegex t = [t, "bpf-next", suffix]) ∧
        (∀ line ∈ (tagListing id (buildCatalog ["6.6-20240101.1", "bpf-next-main", "junk"])
            "bpf-next" : Run Unit).out, line ∈ ["bpf-next-main"] ∧
          ∃ suffix, IsVersionSuffix suffix ∧ line = "bpf-next" ++ "-" ++ suffix ∧
            FindStringSubmatch kernelTagRegex line = [line, "bpf-next", suffix])) :=
  ⟨by decide, catalog_invariant Unit id (fun l => List.Perm.refl l) _ _ _ (by decide)⟩

/-- C4: the bucket built for a label is the list of the raw tags that the classifier keeps
with that label, in arrival order and with their repetitions, and the label is a key of the
catalog exactly when that list is not empty. -/
theorem buildCatalog_bucket (raws : List String) (label : String) :
    Catalog.lookup (buildCatalog raws) label =
        (if keptWith label raws = [] then none else some (keptWith label raws)) ∧
      Catalog.get (buildCatalog raws) label = keptWith label raws ∧
      (label ∈ Catalog.keys (buildCatalog raws) ↔ keptWith label raws ≠ []) := by
  have hb := buildCatalog_lookup raws label
  refine ⟨hb, ?_, ?_⟩
  · unfold Catalog.get
    rw [hb]
    by_cases hk : keptWith label raws = [] <;> simp [hk]
  · rw [Catalog.mem_keys_iff, hb]
    by_cases hk : keptWith label raws = [] <;> simp [hk]

/-! ## Tag listing -/

/-- C7: for a version that is a key of the catalog, tag listing succeeds and prints the
bucket stored under that version rearranged into ascending string order; the printed list
is the same for every arrangement of the bucket. -/
theorem tagListing_sorted (ε : Type) (order : List String → List String)
    (horder : ∀ l, (order l).Perm l) (tags : Catalog) (version : String) (bucket : List String)
    (h : Catalog.lookup tags version = some bucket) :
    (tagListing order tags version : Run ε).err = none ∧
      (tagListing order tags version : Run ε).out.Perm bucket ∧
      (tagListing order tags version : Run ε).out.Pairwise
        (fun a b => stringLess b a = false) ∧
      (∀ bucket' : List String, bucket'.Perm bucket →
        (tagListing order tags version : Run ε).out = slicesSort bucket') := by
  rw [tagListing_found order horder tags version bucket h]
  exact ⟨rfl, slicesSort_perm bucket, slicesSort_sorted bucket,
    fun bucket' hp => (slicesSort_congr hp).symm⟩

/-- C7 at the bucket `6.6-main`, `6.6-10`, `6.6-2`, printed as `6.6-10`, `6.6-2`, `6.6-main`. -/
theorem tagListing_sorted_witness :
    (tagListing List.reverse [("6.6", ["6.6-main", "6.6-10", "6.6-2"])] "6.6" : Run Unit).out =
        ["6.6-10", "6.6-2", "6.6-main"] ∧
      Catalog.lookup [("6.6", ["6.6-main", "6.6-10", "6.6-2"])] "6.6" =
        some ["6.6-main", "6.6-10", "6.6-2"] ∧
      (tagListing List.reverse [("6.6", ["6.6-main", "6.6-10", "6.6-2"])] "6.6" : Run Unit).out.Perm
        ["6.6-main", "6.6-10", "6.6-2"] :=
  ⟨by decide, by decide,
    (tagListing_sorted Unit List.reverse (fun l => List.reverse_perm l)
      [("6.6", ["6.6-main", "6.6-10", "6.6-2"])] "6.6" ["6.6-main", "6.6-10", "6.6-2"]
      (by decide)).2.1⟩

/-- C8: with a version argument, the command fails with the not-found error if and only if
the version is not a key of the built catalog, and the keys attached to the error are the
keys of the catalog, each once. -/
theorem not_found_iff_absent (ε : Type) (order : List String → List String)
    (horder : ∀ l, (order l).Perm l) (raws : List String) (version : String)
    (rest : List String) :
    ((∃ keys, (runE order (.ok raws) (version :: rest) : Run ε).err =
          some (.notFound keys)) ↔ version ∉ Catalog.keys (buildCatalog raws)) ∧
      (∀ keys, (runE order (.ok raws) (version :: rest) : Run ε).err = some (.notFound keys) →
        keys.Perm (Catalog.keys (buildCatalog raws)) ∧ keys.Nodup ∧
          ∀ k, k ∈ keys ↔ k ∈ Catalog.keys (buildCatalog raws)) := by
  have hrun : (runE order (.ok raws) (version :: rest) : Run ε) =
      tagListing order (buildCatalog raws) version := rfl
  rw [hrun]
  cases hl : Catalog.lookup (buildCatalog raws) version with
  | none =>
    have habs : version ∉ Catalog.keys (buildCatalog raws) := by
      rw [Catalog.mem_keys_iff, hl]
      simp
    rw [tagListing_not_found order _ version hl]
    refine ⟨⟨fun _ => habs, fun _ => ⟨_, rfl⟩⟩, ?_⟩
    intro keys hkeys
    simp only [Option.some.injEq, CmdError.notFound.injEq] at hkeys
    subst hkeys
    exact ⟨horder _, (horder _).nodup_iff.2 (buildCatalog_keys_nodup raws),
      fun k => (horder _).mem_iff⟩
  | some bucket =>
    have hpres : version ∈ Catalog.keys (buildCatalog raws) := by
      rw [Catalog.mem_keys_iff, hl]
      simp
    rw [tagListing_found order horder _ version bucket hl]
    refine ⟨⟨?_, fun h => absurd hpres h⟩, ?_⟩
    · rintro ⟨keys, hkeys⟩
      simp at hkeys
    · intro keys hkeys
      simp at hkeys

/-- C8 at the request for `9.9` against a catalog with the keys `6.6` and `bpf-next`. -/
theorem not_found_iff_absent_witness :
    (runE id (.ok ["6.6-1.0", "bpf-next-main"]) ["9.9"] : Run Unit).err =
        some (.notFound ["6.6", "bpf-next"]) ∧
      (["6.6", "bpf-next"].Perm (Catalog.keys (buildCatalog ["6.6-1.0", "bpf-next-main"])) ∧
        ["6.6", "bpf-next"].Nodup ∧
        ∀ k, k ∈ ["6.6", "bpf-next"] ↔
          k ∈ Catalog.keys (buildCatalog ["6.6-1.0", "bpf-next-main"])) :=
  ⟨by decide,
    (not_found_iff_absent Unit id (fun l => List.Perm.refl l) ["6.6-1.0", "bpf-next-main"] "9.9"
      []).2
      ["6.6", "bpf-next"] (by decide)⟩

/-- C10: when the classifier keeps none of the raw tags, the catalog is empty, the version
listing succeeds and prints nothing, and every tag listing fails with the not-found error
and no key attached to it. -/
theorem all_noise_input (ε : Type) (order : List String → List String)
    (horder : ∀ l, (order l).Perm l) (raws : List String) (h : ∀ t ∈ raws, classify t = none) :
    buildCatalog raws = [] ∧
      (runE order (.ok raws) [] : Run ε) = ⟨[], none, []⟩ ∧
      (∀ (version : String) (rest : List String),
        (runE order (.ok raws) (version :: rest) : Run ε) = ⟨[], some (.notFound []), []⟩) := by
  have hb := buildCatalog_of_all_discarded raws h
  have ho := order_nil order horder
  refine ⟨hb, ?_, ?_⟩
  · simp [runE, hb, versionListing, Catalog.keys, ho, Semver.sort]
  · intro version rest
    simp [runE, hb, tagListing, Catalog.lookup, Catalog.keys, ho]

/-- C10 at the raw tags `6.6-5`, `6.6-latest-5`, `garbage`, none of which is kept. -/
theorem all_noise_input_witness :
    (∀ t ∈ ["6.6-5", "6.6-latest-5", "garbage"], classify t = none) ∧
      buildCatalog ["6.6-5", "6.6-latest-5", "garbage"] = [] ∧
      (runE List.reverse (.ok ["6.6-5", "6.6-latest-5", "garbage"]) [] : Run Unit) =
        ⟨[], none, []⟩ ∧
      (∀ (version : String) (rest : List String),
        (runE List.reverse (.ok ["6.6-5", "6.6-latest-5", "garbage"]) (version :: rest) :
          Run Unit) = ⟨[], some (.notFound []), []⟩) :=
  ⟨by decide, all_noise_input Unit List.reverse (fun l => List.reverse_perm l) _ (by decide)⟩

/-! ## Version listing -/

/-- C5, as the specification states it, fails: of the keys `6.1` and `6.05` the pair
(6, 1) is the numerically smaller one, yet `6.05` is printed first, because `v6.05` has a
leading zero and is no semantic version, and those sort before the valid ones. -/
theorem versionListing_leading_zero_first :
    versionListing id (buildCatalog ["6.1-main", "6.05-main"]) = ["6.05", "6.1"] ∧
      numericValue "6" = numericValue "6" ∧ numericValue "1" < numericValue "05" ∧
      Semver.IsValid "v6.05" = false := by
  decide

/-- C5, amended: for two keys each made of two decimal numerals without superfluous
leading zero with a dot between them, the key whose (major, minor) pair is numerically
smaller is printed before the other by the version listing. -/
theorem versionListing_numeric_order (order : List String → List String)
    (horder : ∀ l, (order l).Perm l) (tags : Catalog) (ma na mb nb : String)
    (hma : IsCanonicalDecimal ma) (hna : IsCanonicalDecimal na)
    (hmb : IsCanonicalDecimal mb) (hnb : IsCanonicalDecimal nb)
    (ha : ma ++ "." ++ na ∈ Catalog.keys tags) (hb : mb ++ "." ++ nb ∈ Catalog.keys tags)
    (hlt : numericValue ma < numericValue mb ∨
      (numericValue ma = numericValue mb ∧ numericValue na < numericValue nb)) :
    List.Sublist [ma ++ "." ++ na, mb ++ "." ++ nb] (versionListing order tags) :=
  versionListing_pair order horder tags _ _ ha hb
    (by rw [compareVersion_major_minor ma na mb nb hma hna hmb hnb hlt]; decide)

/-- C5 at the keys `6.12`, `bpf-next`, `6.6`, `6.5`: the numeric keys are printed in the
order `6.5`, `6.6`, `6.12`. -/
theorem versionListing_numeric_order_witness :
    versionListing List.reverse [("6.12", []), ("bpf-next", []), ("6.6", []), ("6.5", [])] =
        ["bpf-next", "6.5", "6.6", "6.12"] ∧
      List.Sublist ["6" ++ "." ++ "6", "6" ++ "." ++ "12"]
        (versionListing List.reverse
          [("6.12", []), ("bpf-next", []), ("6.6", []), ("6.5", [])]) :=
  ⟨by decide,
    versionListing_numeric_order List.reverse (fun l => List.reverse_perm l)
      [("6.12", []), ("bpf-next", []), ("6.6", []), ("6.5", [])] "6" "6" "6" "12"
      (by decide) (by decide) (by decide) (by decide) (by decide) (by decide)
      (Or.inr ⟨by decide, by decide⟩)⟩

/-- C6: without argument the command succeeds and prints every key of the catalog exactly
once and nothing else; putting `v` in front of a key and trimming one `v` afterwards gives
the key back, also when the key itself begins with `v`. -/
theorem versionListing_keys (ε : Type) (order : List String → List String)
    (horder : ∀ l, (order l).Perm l) (raws : List String) :
    (runE order (.ok raws) [] : Run ε).err = none ∧
      (runE order (.ok raws) [] : Run ε).out.Perm (Catalog.keys (buildCatalog raws)) ∧
      (runE order (.ok raws) [] : Run ε).out.Nodup ∧
      (∀ k, k ∈ (runE order (.ok raws) [] : Run ε).out ↔ k ∈ Catalog.keys (buildCatalog raws)) ∧
      (∀ k : String, stringsTrimPrefix ("v" ++ k) "v" = k) := by
  have hp := versionListing_perm order horder (buildCatalog raws)
  exact ⟨rfl, hp, hp.nodup_iff.2 (buildCatalog_keys_nodup raws), fun k => hp.mem_iff,
    fun k => stringsTrimPrefix_append "v" k⟩

/-- C6 at raw tags whose labels are `v6.1` (twice), `6.6` and `vv`. -/
theorem versionListing_keys_witness :
    (runE List.reverse (.ok ["v6.1-main", "6.6-1.0", "v6.1-2.0", "vv-main"]) [] : Run Unit).out =
        ["v6.1", "vv", "6.6"] ∧
      (runE List.reverse (.ok ["v6.1-main", "6.6-1.0", "v6.1-2.0", "vv-main"]) [] :
        Run Unit).out.Perm
        (Catalog.keys (buildCatalog ["v6.1-main", "6.6-1.0", "v6.1-2.0", "vv-main"])) :=
  ⟨by decide,
    (versionListing_keys Unit List.reverse (fun l => List.reverse_perm l)
      ["v6.1-main", "6.6-1.0", "v6.1-2.0", "vv-main"]).2.1⟩

/-- C9: what the command prints, and whether it fails, is the same for every order in
which the keys of the map may be enumerated; the comparison that the version sort uses is
a strict total order on all strings, semantic versions or not. -/
theorem listings_deterministic (ε : Type) (order1 order2 : List String → List String)
    (h1 : ∀ l, (order1 l).Perm l) (h2 : ∀ l, (order2 l).Perm l) (raws args : List String) :
    (runE order1 (.ok raws) args : Run ε).out = (runE order2 (.ok raws) args : Run ε).out ∧
      ((runE order1 (.ok raws) args : Run ε).err = none ↔
        (runE order2 (.ok raws) args : Run ε).err = none) ∧
      (∀ a b : String, Semver.compareVersion a b = 0 ↔ a = b) ∧
      (∀ a b : String, Semver.compareVersion a b < 0 ↔ 0 < Semver.compareVersion b a) ∧
      (∀ a b c : String, Semver.compareVersion a b < 0 → Semver.compareVersion b c < 0 →
        Semver.compareVersion a c < 0) := by
  refine ⟨?_, ?_, compareVersion_eq_zero, ?_, ?_⟩
  · cases args with
    | nil => exact versionListing_congr order1 order2 h1 h2 _
    | cons version rest =>
      show (tagListing order1 (buildCatalog raws) version : Run ε).out =
        (tagListing order2 (buildCatalog raws) version : Run ε).out
      cases hl : Catalog.lookup (buildCatalog raws) version with
      | none => rw [tagListing_not_found order1 _ _ hl, tagListing_not_found order2 _ _ hl]
      | some bucket =>
        rw [tagListing_found order1 h1 _ _ _ hl, tagListing_found order2 h2 _ _ _ hl]
  · cases args with
    | nil => exact ⟨fun _ => rfl, fun _ => rfl⟩
    | cons version rest =>
      show (tagListing order1 (buildCatalog raws) version : Run ε).err = none ↔
        (tagListing order2 (buildCatalog raws) version : Run ε).err = none
      cases hl : Catalog.lookup (buildCatalog raws) version with
      | none =>
        rw [tagListing_not_found order1 _ _ hl, tagListing_not_found order2 _ _ hl]
        simp
      | some bucket =>
        rw [tagListing_found order1 h1 _ _ _ hl, tagListing_found order2 h2 _ _ _ hl]
  · intro a b
    have := compareVersion_swap a b
    omega
  · intro a b c hab hbc
    have hac := compareVersion_trans a b c (by omega) (by omega)
    by_contra hn
    have h0 : Semver.compareVersion a c = 0 := by omega
    have e := (compareVersion_eq_zero a c).1 h0
    subst e
    have := compareVersion_swap a b
    omega

/-- C9 at a catalog with the labels `6.12`, `bpf-next`, `6.6` and `rhel8.9`, once with the
keys enumerated in insertion order and once in the reverse order. -/
theorem listings_deterministic_witness :
    (runE id (.ok ["6.12-main", "bpf-next-main", "6.6-1.0", "rhel8.9-main"]) [] : Run Unit).out =
        ["bpf-next", "rhel8.9", "6.6", "6.12"] ∧
      (runE id (.ok ["6.12-main", "bpf-next-main", "6.6-1.0", "rhel8.9-main"]) [] :
          Run Unit).out =
        (runE List.reverse (.ok ["6.12-main", "bpf-next-main", "6.6-1.0", "rhel8.9-main"]) [] :
          Run Unit).out :=
  ⟨by decide,
    (listings_deterministic Unit id List.reverse (fun l => List.Perm.refl l)
      (fun l => List.reverse_perm l)
      ["6.12-main", "bpf-next-main", "6.6-1.0", "rhel8.9-main"] []).1⟩

/-! ## Failure paths and the state of the map -/

/-- C11: when `crane.ListTags` returns the error `e`, the command returns `e` itself and
prints nothing, for every repository and with or without a version argument. -/
theorem transport_error_verbatim (ε : Type) (listTags : String → Except ε (List String))
    (order : List String → List String) (repo : String) (args : List String) (e : ε)
    (h : listTags repo = .error e) :
    (catalogCommand listTags order repo args).err = some (.listTags e) ∧
      (catalogCommand listTags order repo args).out = [] := by
  unfold catalogCommand
  rw [h]
  exact ⟨rfl, rfl⟩

/-- C11 at a registry that cannot be reached, once without and once with a version. -/
theorem transport_error_verbatim_witness :
    ((catalogCommand (fun _ => Except.error "unreachable") id "quay.io/lvh-images/kernel-images"
        [] : Run String).err = some (.listTags "unreachable") ∧
      (catalogCommand (fun _ => Except.error "unreachable") id "quay.io/lvh-images/kernel-images"
        [] : Run String).out = []) ∧
    ((catalogCommand (fun _ => Except.error "unreachable") id "quay.io/lvh-images/kernel-images"
        ["6.6"] : Run String).err = some (.listTags "unreachable") ∧
      (catalogCommand (fun _ => Except.error "unreachable") id "quay.io/lvh-images/kernel-images"
        ["6.6"] : Run String).out = []) :=
  ⟨transport_error_verbatim String (fun _ => Except.error "unreachable") id _ [] "unreachable" rfl,
    transport_error_verbatim String (fun _ => Except.error "unreachable") id _ ["6.6"]
      "unreachable" rfl⟩

/-- C12: when the command returns an error it has printed nothing, and when it returns no
error it has printed the whole view that was asked for: every key of the catalog once when
there is no argument, the sorted bucket of the requested version otherwise. -/
theorem no_partial_output (ε : Type) (order : List String → List String)
    (horder : ∀ l, (order l).Perm l) (listed : Except ε (List String)) (args : List String) :
    ((runE order listed args).err ≠ none → (runE order listed args).out = []) ∧
      ((runE order listed args).err = none →
        ∃ raws, listed = .ok raws ∧
          (args = [] → (runE order listed args).out = versionListing order (buildCatalog raws) ∧
            (runE order listed args).out.Perm (Catalog.keys (buildCatalog raws))) ∧
          (∀ version rest, args = version :: rest →
            ∃ bucket, Catalog.lookup (buildCatalog raws) version = some bucket ∧
              (runE order listed args).out = slicesSort bucket)) := by
  cases listed with
  | error e =>
    refine ⟨fun _ => rfl, fun h => ?_⟩
    simp [runE] at h
  | ok raws =>
    cases args with
    | nil =>
      refine ⟨fun h => absurd rfl h, fun _ => ⟨raws, rfl, fun _ => ⟨rfl, ?_⟩, ?_⟩⟩
      · exact versionListing_perm order horder _
      · intro version rest h
        simp at h
    | cons version rest =>
      have hrun : (runE order (.ok raws) (version :: rest) : Run ε) =
          tagListing order (buildCatalog raws) version := rfl
      rw [hrun]
      cases hl : Catalog.lookup (buildCatalog raws) version with
      | none =>
        rw [tagListing_not_found order _ version hl]
        refine ⟨fun _ => rfl, fun h => ?_⟩
        simp at h
      | some bucket =>
        rw [tagListing_found order horder _ version bucket hl]
        refine ⟨fun h => absurd rfl h, fun _ => ⟨raws, rfl, fun h => ?_, ?_⟩⟩
        · simp at h
        · intro v r h
          simp only [List.cons.injEq] at h
          obtain ⟨rfl, _⟩ := h
          exact ⟨bucket, hl, rfl⟩

/-- C12 at the request for `9.9`, which fails without output, and for `6.6`, which prints
the whole bucket. -/
theorem no_partial_output_witness :
    (runE List.reverse (.ok ["6.6-2.0", "bpf-next-main", "6.6-1.0"]) ["9.9"] : Run Unit) =
        ⟨[], some (.notFound ["bpf-next", "6.6"]),
          [("6.6", ["6.6-2.0", "6.6-1.0"]), ("bpf-next", ["bpf-next-main"])]⟩ ∧
      (runE List.reverse (.ok ["6.6-2.0", "bpf-next-main", "6.6-1.0"]) ["6.6"] : Run Unit).out =
        ["6.6-1.0", "6.6-2.0"] ∧
      ((runE List.reverse (.ok ["6.6-2.0", "bpf-next-main", "6.6-1.0"]) ["9.9"] :
        Run Unit).err ≠ none →
        (runE List.reverse (.ok ["6.6-2.0", "bpf-next-main", "6.6-1.0"]) ["9.9"] :
          Run Unit).out = []) :=
  ⟨by decide, by decide,
    (no_partial_output Unit List.reverse (fun l => List.reverse_perm l)
      (.ok ["6.6-2.0", "bpf-next-main", "6.6-1.0"]) ["9.9"]).1⟩

/-- C13, as the specification states it, fails: after the tag listing for `bpf-next` the
bucket of `6.6`, which held `6.6-2.0`, `6.6-1.0` in this order, holds `6.6-1.0`, `6.6-2.0`;
the loop of lines 90-92 sorts every bucket of the map itself, not a copy of one. -/
theorem tagListing_reorders_buckets :
    Catalog.lookup (buildCatalog ["6.6-2.0", "bpf-next-main", "6.6-1.0"]) "6.6" =
        some ["6.6-2.0", "6.6-1.0"] ∧
      Catalog.lookup (tagListing id (buildCatalog ["6.6-2.0", "bpf-next-main", "6.6-1.0"])
        "bpf-next" : Run Unit).tags "6.6" = some ["6.6-1.0", "6.6-2.0"] := by
  decide

/-- C13, amended: tag listing sorts the map in place. When the requested version is a key,
the map has the same keys afterwards and every bucket, the requested one and all others,
holds the ascending rearrangement of the tags it held before; when the version is not a
key, the map is left as it was. -/
theorem tagListing_sorts_in_place (ε : Type) (order : List String → List String)
    (horder : ∀ l, (order l).Perm l) (tags : Catalog) (version : String) :
    (Catalog.lookup tags version = none →
        (tagListing order tags version : Run ε).tags = tags) ∧
      (Catalog.lookup tags version ≠ none →
        Catalog.keys (tagListing order tags version : Run ε).tags = Catalog.keys tags ∧
          (∀ k, Catalog.lookup (tagListing order tags version : Run ε).tags k =
            (Catalog.lookup tags k).map slicesSort) ∧
          (∀ k before, Catalog.lookup tags k = some before →
            ∃ after, Catalog.lookup (tagListing order tags version : Run ε).tags k = some after ∧
              after.Perm before ∧ after.Pairwise (fun a b => stringLess b a = false))) := by
  constructor
  · intro h
    rw [tagListing_not_found order tags version h]
  · intro h
    obtain ⟨bucket, hb⟩ := Option.ne_none_iff_exists'.1 h
    rw [tagListing_found order horder tags version bucket hb]
    refine ⟨sortBuckets_keys order horder tags, fun k => sortBuckets_lookup order horder tags k,
      ?_⟩
    intro k before hk
    refine ⟨slicesSort before, ?_, slicesSort_perm before, slicesSort_sorted before⟩
    simp only []
    rw [sortBuckets_lookup order horder tags k, hk]
    rfl

/-- C13 at a map with the buckets `6.6` and `bpf-next`, after the tag listing for `6.6`. -/
theorem tagListing_sorts_in_place_witness :
    (tagListing List.reverse
        [("6.6", ["6.6-2.0", "6.6-1.0"]), ("bpf-next", ["bpf-next-main", "bpf-next-1.0"])]
        "6.6" : Run Unit).tags =
        [("6.6", ["6.6-1.0", "6.6-2.0"]), ("bpf-next", ["bpf-next-1.0", "bpf-next-main"])] ∧
      Catalog.keys (tagListing List.reverse
        [("6.6", ["6.6-2.0", "6.6-1.0"]), ("bpf-next", ["bpf-next-main", "bpf-next-1.0"])]
        "6.6" : Run Unit).tags =
        Catalog.keys
          [("6.6", ["6.6-2.0", "6.6-1.0"]), ("bpf-next", ["bpf-next-main", "bpf-next-1.0"])] :=
  ⟨by decide,
    ((tagListing_sorts_in_place Unit List.reverse (fun l => List.reverse_perm l)
      [("6.6", ["6.6-2.0", "6.6-1.0"]), ("bpf-next", ["bpf-next-main", "bpf-next-1.0"])]
      "6.6").2 (by decide)).1⟩

/-! ## The split of a tag, invalid versions, and the order of the raw tags -/

theorem findFrom_tagRegex_inv (greedy : Bool) (s whole label suffix : List Char)
    (h : findFrom (tagRegex greedy) 0 s = [whole, label, suffix]) :
    whole = s ∧ TagChars s label suffix := by
  by_cases hex : ∃ l x, TagChars s l x
  · obtain ⟨l, x, hlx⟩ := hex
    rw [findFrom_tagRegex_match greedy hlx] at h
    simp only [List.cons.injEq, and_true] at h
    obtain ⟨rfl, rfl, rfl⟩ := h
    exact ⟨rfl, hlx⟩
  · rw [findFrom_tagRegex_nomatch greedy hex] at h
    simp at h

theorem FindStringSubmatch_tagRegex_inv (greedy : Bool) (tag whole label suffix : String)
    (h : FindStringSubmatch (tagRegex greedy) tag = [whole, label, suffix]) :
    whole = tag ∧ TagChars tag.data label.data suffix.data := by
  unfold FindStringSubmatch at h
  have h' : findFrom (tagRegex greedy) 0 tag.data = [whole.data, label.data, suffix.data] := by
    have := congrArg (List.map String.data) h
    simpa [List.map_map, Function.comp_def] using this
  obtain ⟨hw, ht⟩ := findFrom_tagRegex_inv greedy _ _ _ _ h'
  exact ⟨String.ext hw, ht⟩

theorem findFrom_greedy_irrelevant (s : List Char) :
    findFrom (tagRegex false) 0 s = findFrom (tagRegex true) 0 s := by
  by_cases hex : ∃ l x, TagChars s l x
  · obtain ⟨l, x, hlx⟩ := hex
    rw [findFrom_tagRegex_match false hlx, findFrom_tagRegex_match true hlx]
  · rw [findFrom_tagRegex_nomatch false hex, findFrom_tagRegex_nomatch true hex]

theorem charsLess_cons_same (c : Char) (a b : List Char) :
    charsLess (c :: a) (c :: b) = charsLess a b := by
  simp [charsLess]

theorem stringLess_v (a b : String) : stringLess ("v" ++ a) ("v" ++ b) = stringLess a b := by
  unfold stringLess
  have ha : ("v" ++ a).data = 'v' :: a.data := by simp
  have hb : ("v" ++ b).data = 'v' :: b.data := by simp
  rw [ha, hb, charsLess_cons_same]

theorem v_append_inj (a b : String) (h : "v" ++ a = "v" ++ b) : a = b := by
  have := congrArg String.data h
  simp only [String.data_append, List.append_cancel_left_eq] at this
  exact String.ext this

theorem compareVersion_invalid_valid (v w : String) (hv : Semver.IsValid v = false)
    (hw : Semver.IsValid w = true) : Semver.compareVersion v w = -1 := by
  unfold Semver.IsValid at hv hw
  have hc : Semver.Compare v w = -1 := by
    unfold Semver.Compare
    cases hpv : Semver.parse v.data with
    | some p => simp [hpv] at hv
    | none =>
      cases hpw : Semver.parse w.data with
      | none => simp [hpw] at hw
      | some q => rfl
  unfold Semver.compareVersion
  simp [hc]

theorem compareVersion_invalid_invalid (v w : String) (hv : Semver.IsValid v = false)
    (hw : Semver.IsValid w = false) : Semver.compareVersion v w = stringsCompare v w := by
  unfold Semver.IsValid at hv hw
  have hc : Semver.Compare v w = 0 := by
    unfold Semver.Compare
    cases hpv : Semver.parse v.data with
    | some p => simp [hpv] at hv
    | none =>
      cases hpw : Semver.parse w.data with
      | some q => simp [hpw] at hw
      | none => rfl
  unfold Semver.compareVersion
  simp [hc]

theorem versionListing_congr_keys (order1 order2 : List String → List String)
    (h1 : ∀ l, (order1 l).Perm l) (h2 : ∀ l, (order2 l).Perm l) (tags1 tags2 : Catalog)
    (hk : (Catalog.keys tags1).Perm (Catalog.keys tags2)) :
    versionListing order1 tags1 = versionListing order2 tags2 := by
  unfold versionListing
  have hp : ((order1 (Catalog.keys tags1)).map (fun v => "v" ++ v)).Perm
      ((order2 (Catalog.keys tags2)).map (fun v => "v" ++ v)) :=
    (((h1 _).trans hk).trans (h2 _).symm).map _
  simp only [Semver.sort_congr hp]

theorem keptWith_perm (L : String) {raws1 raws2 : List String} (hp : raws1.Perm raws2) :
    (keptWith L raws1).Perm (keptWith L raws2) :=
  hp.filter _

theorem buildCatalog_keys_perm {raws1 raws2 : List String} (hp : raws1.Perm raws2) :
    (Catalog.keys (buildCatalog raws1)).Perm (Catalog.keys (buildCatalog raws2)) := by
  rw [List.perm_ext_iff_of_nodup (buildCatalog_keys_nodup raws1) (buildCatalog_keys_nodup raws2)]
  intro L
  rw [Catalog.mem_keys_iff, Catalog.mem_keys_iff, buildCatalog_lookup, buildCatalog_lookup]
  have hk := keptWith_perm L hp
  by_cases h1 : keptWith L raws1 = []
  · have h2 : keptWith L raws2 = [] := by
      rw [h1] at hk
      exact List.perm_nil.1 hk.symm
    simp [h1, h2]
  · have h2 : keptWith L raws2 ≠ [] := by
      intro e
      rw [e] at hk
      exact h1 (List.perm_nil.1 hk)
    simp [h1, h2]

/-- C14: when `kernelTagRegex` matches a tag, the captured suffix has no hyphen in it, the
tag is the captured label, a hyphen and the captured suffix, every other split of the tag
at a hyphen with no hyphen after it gives the same two parts, and the pattern with a
non-greedy label `(.+?)` captures the same label and suffix. -/
theorem tag_split_unambiguous (tag whole label suffix : String)
    (h : FindStringSubmatch kernelTagRegex tag = [whole, label, suffix]) :
    '-' ∉ suffix.data ∧ whole = tag ∧ tag = label ++ "-" ++ suffix ∧
      (∀ label' suffix' : String, tag = label' ++ "-" ++ suffix' → '-' ∉ suffix'.data →
        label' = label ∧ suffix' = suffix) ∧
      FindStringSubmatch (tagRegex false) tag = [whole, label, suffix] := by
  obtain ⟨hw, ht⟩ := FindStringSubmatch_tagRegex_inv true tag whole label suffix h
  have hno := suffixChars_no_hyphen ht.2.2.1
  have heq := ((tagChars_iff tag label suffix).1 ht).1
  refine ⟨hno, hw, heq, ?_, ?_⟩
  · intro label' suffix' h' hno'
    have hd : label'.data ++ '-' :: suffix'.data = label.data ++ '-' :: suffix.data := by
      have := congrArg String.data (h'.symm.trans heq)
      simpa using this
    obtain ⟨h1, h2⟩ := split_last_hyphen_unique _ _ _ _ hno' hno hd
    exact ⟨String.ext h1, String.ext h2⟩
  · unfold FindStringSubmatch
    rw [findFrom_greedy_irrelevant]
    exact h

/-- C14 at the tag `a-1.2-3.4`, whose label `a-1.2` itself ends in a possible suffix. -/
theorem tag_split_unambiguous_witness :
    FindStringSubmatch kernelTagRegex "a-1.2-3.4" = ["a-1.2-3.4", "a-1.2", "3.4"] ∧
      FindStringSubmatch (tagRegex false) "a-1.2-3.4" = ["a-1.2-3.4", "a-1.2", "3.4"] :=
  ⟨by decide, (tag_split_unambiguous "a-1.2-3.4" "a-1.2-3.4" "a-1.2" "3.4" (by decide)).2.2.2.2⟩

/-- C15: in the version listing a key `a` for which `v` followed by `a` is no semantic
version is printed before every key that gives a semantic version, and before every other
such key that is greater than `a` in string order. -/
theorem invalid_versions_first (order : List String → List String)
    (horder : ∀ l, (order l).Perm l) (tags : Catalog) (a b : String)
    (ha : a ∈ Catalog.keys tags) (hb : b ∈ Catalog.keys tags)
    (hinv : Semver.IsValid ("v" ++ a) = false) :
    (Semver.IsValid ("v" ++ b) = true → List.Sublist [a, b] (versionListing order tags)) ∧
      (Semver.IsValid ("v" ++ b) = false → stringLess a b = true →
        List.Sublist [a, b] (versionListing order tags)) := by
  constructor
  · intro hval
    exact versionListing_pair order horder tags a b ha hb
      (by rw [compareVersion_invalid_valid _ _ hinv hval]; decide)
  · intro hinv' hlt
    refine versionListing_pair order horder tags a b ha hb ?_
    rw [compareVersion_invalid_invalid _ _ hinv hinv']
    have hne : "v" ++ a ≠ "v" ++ b := by
      intro e
      have e' := v_append_inj a b e
      subst e'
      have hfalse := stringLess_asymm a a hlt
      rw [hlt] at hfalse
      exact absurd hfalse (by simp)
    unfold stringsCompare
    rw [if_neg hne, stringLess_v, hlt]
    decide

/-- C15 at the keys `6.6`, `rhel8.9`, `bpf-next`, `6.05`, of which only `6.6` gives a
semantic version. -/
theorem invalid_versions_first_witness :
    versionListing id [("6.6", []), ("rhel8.9", []), ("bpf-next", []), ("6.05", [])] =
        ["6.05", "bpf-next", "rhel8.9", "6.6"] ∧
      Semver.IsValid "vbpf-next" = false ∧ Semver.IsValid "vrhel8.9" = false ∧
      Semver.IsValid "v6.05" = false ∧ Semver.IsValid "v6.6" = true ∧
      List.Sublist ["rhel8.9", "6.6"]
        (versionListing id [("6.6", []), ("rhel8.9", []), ("bpf-next", []), ("6.05", [])]) :=
  ⟨by decide, by decide, by decide, by decide, by decide,
    (invalid_versions_first id (fun l => List.Perm.refl l)
      [("6.6", []), ("rhel8.9", []), ("bpf-next", []), ("6.05", [])] "rhel8.9" "6.6"
      (by decide) (by decide) (by decide)).1 (by decide)⟩

/-- C16: for two raw tag sequences that are rearrangements of each other, and whatever the
order in which the map is enumerated, the command prints the same lines, fails or succeeds
alike, and in the not-found case attaches the same keys up to their order. -/
theorem input_order_invariance (ε : Type) (order1 order2 : List String → List String)
    (h1 : ∀ l, (order1 l).Perm l) (h2 : ∀ l, (order2 l).Perm l) (raws1 raws2 : List String)
    (hp : raws1.Perm raws2) (args : List String) :
    (runE order1 (.ok raws1) args : Run ε).out = (runE order2 (.ok raws2) args : Run ε).out ∧
      ((runE order1 (.ok raws1) args : Run ε).err = none ↔
        (runE order2 (.ok raws2) args : Run ε).err = none) ∧
      (∀ keys1, (runE order1 (.ok raws1) args : Run ε).err = some (.notFound keys1) →
        ∃ keys2, (runE order2 (.ok raws2) args : Run ε).err = some (.notFound keys2) ∧
          keys1.Perm keys2) := by
  have hkeys := buildCatalog_keys_perm hp
  cases args with
  | nil =>
    refine ⟨versionListing_congr_keys order1 order2 h1 h2 _ _ hkeys,
      ⟨fun _ => rfl, fun _ => rfl⟩, ?_⟩
    intro keys1 hk
    simp [runE] at hk
  | cons version rest =>
    have hrun1 : (runE order1 (.ok raws1) (version :: rest) : Run ε) =
        tagListing order1 (buildCatalog raws1) version := rfl
    have hrun2 : (runE order2 (.ok raws2) (version :: rest) : Run ε) =
        tagListing order2 (buildCatalog raws2) version := rfl
    rw [hrun1, hrun2]
    have hk := keptWith_perm version hp
    have hl1 := buildCatalog_lookup raws1 version
    have hl2 := buildCatalog_lookup raws2 version
    by_cases hnil : keptWith version raws1 = []
    · have hnil2 : keptWith version raws2 = [] := by
        rw [hnil] at hk
        exact List.perm_nil.1 hk.symm
      rw [if_pos hnil] at hl1
      rw [if_pos hnil2] at hl2
      rw [tagListing_not_found order1 _ _ hl1, tagListing_not_found order2 _ _ hl2]
      refine ⟨rfl, by simp, ?_⟩
      intro keys1 hk1
      simp only [Option.some.injEq, CmdError.notFound.injEq] at hk1
      subst hk1
      exact ⟨_, rfl, ((h1 _).trans hkeys).trans (h2 _).symm⟩
    · have hnil2 : keptWith version raws2 ≠ [] := by
        intro e
        rw [e] at hk
        exact hnil (List.perm_nil.1 hk)
      rw [if_neg hnil] at hl1
      rw [if_neg hnil2] at hl2
      rw [tagListing_found order1 h1 _ _ _ hl1, tagListing_found order2 h2 _ _ _ hl2]
      refine ⟨slicesSort_congr hk, Iff.rfl, ?_⟩
      intro keys1 hk1
      simp at hk1

/-- C16 at three raw tags and their reversal, for the version listing and for the tag
listing of `6.6`. -/
theorem input_order_invariance_witness :
    (runE id (.ok ["6.6-2.0", "bpf-next-main", "6.6-1.0"]) [] : Run Unit).out =
        ["bpf-next", "6.6"] ∧
      (runE id (.ok ["6.6-2.0", "bpf-next-main", "6.6-1.0"]) [] : Run Unit).out =
        (runE List.reverse (.ok ["6.6-1.0", "bpf-next-main", "6.6-2.0"]) [] : Run Unit).out ∧
      (runE id (.ok ["6.6-2.0", "bpf-next-main", "6.6-1.0"]) ["6.6"] : Run Unit).out =
        (runE List.reverse (.ok ["6.6-1.0", "bpf-next-main", "6.6-2.0"]) ["6.6"] : Run Unit).out :=
  ⟨by decide,
    (input_order_invariance Unit id List.reverse (fun l => List.Perm.refl l)
      (fun l => List.reverse_perm l) ["6.6-2.0", "bpf-next-main", "6.6-1.0"]
      ["6.6-1.0", "bpf-next-main", "6.6-2.0"] (List.reverse_perm _).symm []).1,
    (input_order_invariance Unit id List.reverse (fun l => List.Perm.refl l)
      (fun l => List.reverse_perm l) ["6.6-2.0", "bpf-next-main", "6.6-1.0"]
      ["6.6-1.0", "bpf-next-main", "6.6-2.0"] (List.reverse_perm _).symm ["6.6"]).1⟩

end Kernels
